import Mathlib

/-
Verification of the HealthRoute Africa routing engine (routing.py) against its
specification.

Modelling conventions, fixed for the whole development:
  * Python floats are modelled by the rationals ℚ; the value float('inf') is
    modelled by ⊤ in WithTop ℚ.  All quantities that can become infinite in the
    Python code (priority weights, the distance/score fields of a routing
    result) live in WithTop ℚ; quantities that are provably finite floats in
    every execution (raw road distances inside the heap entries) live in ℚ.
  * A networkx Graph is modelled by a list of nodes, each carrying its
    prevalence attribute, together with a list of edges, each carrying its
    distance attribute.  Attribute access graph.nodes[n].get('prevalence', c)
    is modelled by a lookup returning the stored prevalence with default c;
    in routing.py the dictionary lookup graph.nodes[n] itself can raise
    KeyError when n is not a node, which is modelled by Option where that
    exception is actually reachable (get_route_details) and elided where the
    accessed node provably is in the graph (the Dijkstra loop only ever reads
    attributes of the source and of edge endpoints).
  * The heapq priority queue is modelled by a list of entries together with a
    pop-minimum operation for the lexicographic order on
    (weight, distance, node) used by Python's tuple comparison.  The internal
    heap layout only determines which of several *equal* minimal tuples is
    popped first, and equal tuples are equal values, so a list faithfully
    models the heap as a multiset.
  * The while loops of routing.py are written with an explicit fuel argument
    so that every definition is structurally recursive and kernel-evaluable;
    the fuel passed at each call site is proved sufficient (the loop halts by
    itself before the fuel runs out) as part of the development, so the fueled
    functions agree with the unbounded Python loops.
-/

/-- A node of the road network: its identifier together with the value of its
`prevalence` attribute (routing.py reads no other node attribute). -/
abbrev RNode := String × ℚ

/-- An edge of the road network: the two endpoint identifiers together with the
value of its `distance` attribute. -/
abbrev REdge := String × String × ℚ

/-- Model of the networkx graph consumed by routing.py: node list with
prevalence attributes and edge list with distance attributes. -/
structure Graph where
  nodes : List RNode
  edges : List REdge
deriving DecidableEq

namespace Graph

/-- The identifiers of the graph's nodes (models iteration over, and membership
tests against, `graph.nodes`). -/
def nodeIds (g : Graph) : List String := g.nodes.map Prod.fst

/-- Models `graph.nodes[n]['prevalence']` as a partial lookup: `none` when `n`
is not a node of the graph (in Python the lookup `graph.nodes[n]` raises
KeyError in that case). -/
def prevalenceOf (g : Graph) (n : String) : Option ℚ :=
  (g.nodes.find? (fun r => r.1 == n)).map Prod.snd

/-- Models `graph.nodes[n].get('prevalence', c)` at a node `n` that is present
in the graph (the prevalence attribute is always set by the data loader, so the
default `c` only fires for identifiers that are not nodes — a case the Dijkstra
loop never reaches). -/
def prevD (g : Graph) (n : String) (c : ℚ) : ℚ :=
  (g.prevalenceOf n).getD c

/-- Models `graph.get_edge_data(u, v)`: the distance attribute of the edge
joining `u` and `v` in either orientation, or `none` when no such edge exists
(networkx returns None in that case, also when `u` or `v` is not a node). -/
def get_edge_data (g : Graph) (u v : String) : Option ℚ :=
  (g.edges.find? (fun e => (e.1 == u && e.2.1 == v) || (e.1 == v && e.2.1 == u))).map
    (fun e => e.2.2)

/-- Models iteration over `graph.neighbors(u)`: the opposite endpoints of the
edges incident to `u`, in edge-insertion order (which is networkx's adjacency
iteration order for a simple graph). -/
def neighbors (g : Graph) (u : String) : List String :=
  g.edges.filterMap (fun e =>
    if e.1 == u then some e.2.1 else if e.2.1 == u then some e.1 else none)

/-- The pair `u`,`v` is joined by a direct edge. -/
def hasEdge (g : Graph) (u v : String) : Prop :=
  (g.get_edge_data u v).isSome = true

instance (g : Graph) (u v : String) : Decidable (g.hasEdge u v) := by
  unfold hasEdge; infer_instance

/-- Well-formedness of a graph, as required by the data model (§3): unique node
identifiers, edge endpoints that are nodes, no self-loops, positive distances,
at most one edge per unordered pair, and prevalences in [0,1].  networkx
guarantees the structural parts for every graph built with add_node/add_edge;
the dataset guarantees the numeric parts. -/
def WF (g : Graph) : Prop :=
  g.nodeIds.Nodup ∧
  (∀ e ∈ g.edges, e.1 ∈ g.nodeIds ∧ e.2.1 ∈ g.nodeIds ∧ e.1 ≠ e.2.1 ∧ 0 < e.2.2) ∧
  (∀ e ∈ g.edges, ∀ f ∈ g.edges, e ≠ f →
    ¬ ((e.1 = f.1 ∧ e.2.1 = f.2.1) ∨ (e.1 = f.2.1 ∧ e.2.1 = f.1))) ∧
  (∀ r ∈ g.nodes, 0 ≤ r.2 ∧ r.2 ≤ 1)

instance (g : Graph) : Decidable g.WF := by
  unfold WF; infer_instance

end Graph

/-- routing.py, calculate_priority_weight (lines 16–39):
`W = distance / (prevalence × urgency)`, with positive infinity when
`prevalence == 0 or urgency == 0`. -/
def calculate_priority_weight (distance prevalence urgency : ℚ) : WithTop ℚ :=
  if prevalence = 0 ∨ urgency = 0 then ⊤
  else ((distance / (prevalence * urgency) : ℚ) : WithTop ℚ)

namespace Graph

/-- The cost charged to the edge `u`–`v` by the Dijkstra relaxation
(routing.py lines 122–133): the priority weight of the road distance with the
average of the two endpoint prevalences (default 0.5) and the caller's
urgency.  When `u`,`v` are not directly joined the stored road distance
defaults to 0, exactly as `edge_data.get('distance', 0)` would — the loop only
evaluates this on actual neighbors. -/
def edgeCost (g : Graph) (urgency : ℚ) (u v : String) : WithTop ℚ :=
  calculate_priority_weight ((g.get_edge_data u v).getD 0)
    ((g.prevD u (1/2) + g.prevD v (1/2)) / 2) urgency

/-- Cumulative priority weight of a node sequence: the sum of `edgeCost` over
its consecutive pairs. -/
def pathWeight (g : Graph) (urgency : ℚ) : List String → WithTop ℚ
  | a :: b :: rest => g.edgeCost urgency a b + g.pathWeight urgency (b :: rest)
  | _ => 0

/-- Cumulative raw road distance of a node sequence: the sum of the direct-edge
distances (with the same `.get('distance', 0)` default) over consecutive
pairs. -/
def pathDistance (g : Graph) : List String → ℚ
  | a :: b :: rest => (g.get_edge_data a b).getD 0 + g.pathDistance (b :: rest)
  | _ => 0

end Graph

/-- An entry of the heapq priority queue of priority_dijkstra (line 79):
`(priority_weight, current_distance, current_node)`.  The weight component can
in principle hold `inf` (it is a float), hence WithTop; the distance component
is always a finite float in every reachable state. -/
abbrev HeapEntry := WithTop ℚ × ℚ × String

/-- The strict lexicographic order on heap entries: Python compares the tuples
`(weight, distance, node)` componentwise, strings by code-point order. -/
def entryLt (a b : HeapEntry) : Prop :=
  a.1 < b.1 ∨ (a.1 = b.1 ∧ (a.2.1 < b.2.1 ∨ (a.2.1 = b.2.1 ∧ a.2.2 < b.2.2)))

instance (a b : HeapEntry) : Decidable (entryLt a b) := by
  unfold entryLt; infer_instance

/-- The least entry of `m :: l` in the `entryLt` order (first occurrence kept
among equal entries, which are equal values). -/
def pqMinAux : HeapEntry → List HeapEntry → HeapEntry
  | m, [] => m
  | m, e :: es => pqMinAux (if entryLt e m then e else m) es

/-- Remove the first occurrence of an entry from the queue (the queue models
the heap as a multiset, so which occurrence of an equal entry is removed is
immaterial). -/
def eraseEntry : List HeapEntry → HeapEntry → List HeapEntry
  | [], _ => []
  | x :: xs, e => if x = e then xs else x :: eraseEntry xs e

/-- Models `heapq.heappop`: remove and return the least entry of the queue in
the lexicographic tuple order, or `none` on an empty queue (in Python the loop
guard `while pq` prevents popping an empty queue). -/
def popMin : List HeapEntry → Option (HeapEntry × List HeapEntry)
  | [] => none
  | e :: es =>
    let m := pqMinAux e es
    some (m, eraseEntry (e :: es) m)

/-- The mutable state of the main loop of priority_dijkstra (lines 77–96):
priority queue, best known cumulative weights, best known cumulative
distances, predecessor links, and the visited set (kept as a list, newest
first; nodes are only ever added when not yet present). -/
structure DijkstraState where
  pq : List HeapEntry
  best : String → WithTop ℚ
  dist : String → WithTop ℚ
  pred : String → Option String
  visited : List String

/-- One edge relaxation of priority_dijkstra (lines 118–146) from the just
finalized node `u` (popped with cumulative weight `w` and distance `d`) to the
neighbor `v`: skip visited neighbors, otherwise compute the edge's priority
weight, and on improvement update best weight / distance / predecessor and
push the new entry. -/
def relaxOne (g : Graph) (urgency : ℚ) (u : String) (w : WithTop ℚ) (d : ℚ)
    (s : DijkstraState) (v : String) : DijkstraState :=
  if v ∈ s.visited then s
  else
    let road := (g.get_edge_data u v).getD 0
    let edge_priority := g.edgeCost urgency u v
    let new_distance := d + road
    let new_weight := w + edge_priority
    if new_weight < s.best v then
      { pq := (new_weight, new_distance, v) :: s.pq
        best := fun x => if x = v then new_weight else s.best x
        dist := fun x => if x = v then (new_distance : WithTop ℚ) else s.dist x
        pred := fun x => if x = v then some u else s.pred x
        visited := s.visited }
    else s

/-- The neighbor loop of priority_dijkstra (lines 118–146): relax every
neighbor of `u` in adjacency order. -/
def relaxNeighbors (g : Graph) (urgency : ℚ) (u : String) (w : WithTop ℚ) (d : ℚ)
    (s : DijkstraState) : DijkstraState :=
  (g.neighbors u).foldl (fun t v => relaxOne g urgency u w d t v) s

/-- The main loop of priority_dijkstra (lines 96–146), with an explicit fuel
argument making the recursion structural.  Each iteration pops the minimal
entry; a visited node is skipped, the destination stops the loop the moment it
is finalized, a stale entry (weight worse than the recorded best) is skipped,
and otherwise the node's neighbors are relaxed.  The fuel passed by
`priority_dijkstra` is proved sufficient: when it reaches 0 the queue is
already empty, so the 0 branch agrees with the Python loop's exit. -/
def dijkstraLoop (g : Graph) (destination : String) (urgency : ℚ) :
    ℕ → DijkstraState → DijkstraState
  | 0, s => s
  | fuel + 1, s =>
    match popMin s.pq with
    | none => s
    | some (e, rest) =>
      if e.2.2 ∈ s.visited then
        dijkstraLoop g destination urgency fuel { s with pq := rest }
      else
        let s1 : DijkstraState :=
          { s with pq := rest, visited := e.2.2 :: s.visited }
        if e.2.2 = destination then s1
        else if s1.best e.2.2 < e.1 then
          dijkstraLoop g destination urgency fuel s1
        else
          dijkstraLoop g destination urgency fuel (relaxNeighbors g urgency e.2.2 e.1 e.2.1 s1)

/-- The path reconstruction of priority_dijkstra (lines 153–157): walk the
predecessor links from the destination (the walk ends at the source, whose
link stays None), collecting nodes; the caller reverses the result.  Fueled:
the fuel passed by `priority_dijkstra` is proved sufficient because
predecessor links strictly descend in visitation order. -/
def buildPath (pred : String → Option String) : ℕ → String → List String
  | 0, cur => [cur]
  | fuel + 1, cur =>
    cur :: (match pred cur with
      | none => []
      | some p => buildPath pred fuel p)

/-- All identifiers occurring in the graph: node ids and edge endpoints (for a
well-formed graph the latter are among the former; the redundancy only serves
the fuel bound, which must cover arbitrary states). -/
def Graph.allIds (g : Graph) : List String :=
  g.nodeIds ++ g.edges.flatMap (fun e => [e.1, e.2.1])

/-- Number of graph identifiers not yet visited (a loop-variant component). -/
def unvisitedCount (g : Graph) (visited : List String) : ℕ :=
  (g.allIds.filter (fun x => decide (x ∉ visited))).length

/-- The loop variant of the Dijkstra main loop: strictly decreases at every
iteration, so it bounds the number of remaining iterations. -/
def dmeasure (g : Graph) (s : DijkstraState) : ℕ :=
  (g.edges.length + 2) * unvisitedCount g s.visited + s.pq.length

/-- The fuel handed to `dijkstraLoop`: the value of `dmeasure` on the initial
state (one queue entry, nothing visited). -/
def Graph.dijkstraFuel (g : Graph) : ℕ :=
  (g.edges.length + 2) * g.allIds.length + 1

/-- The initial search state of priority_dijkstra (lines 77–93): one queue
entry for the source, best weights and distances infinite except at the
source, no predecessors, nothing visited. -/
def dijkstraInit (source : String) : DijkstraState :=
  { pq := [(0, 0, source)]
    best := fun n => if n = source then 0 else ⊤
    dist := fun n => if n = source then 0 else ⊤
    pred := fun _ => none
    visited := [] }

/-- routing.py, priority_dijkstra (lines 42–161).  Returns
`(path, total_distance, priority_score)`: the no-path sentinel
`(none, ⊤, ⊤)` models `(None, inf, inf)`. -/
def priority_dijkstra (g : Graph) (source destination : String) (urgency : ℚ) :
    Option (List String) × WithTop ℚ × WithTop ℚ :=
  if source ∉ g.nodeIds ∨ destination ∉ g.nodeIds then (none, ⊤, ⊤)
  else if source = destination then (some [source], 0, 0)
  else
    let s := dijkstraLoop g destination urgency g.dijkstraFuel (dijkstraInit source)
    if s.pred destination = none ∧ destination ≠ source then (none, ⊤, ⊤)
    else
      (some (buildPath s.pred s.visited.length destination).reverse,
        s.dist destination, s.best destination)

/-- Python truthiness of an optional node list: `None` and the empty list are
falsy (routing.py tests `if temp_path`). -/
def pyTruthy : Option (List String) → Bool
  | none => false
  | some [] => false
  | some (_ :: _) => true

/-- One record produced by get_route_details (lines 202–208). -/
structure RouteSegment where
  fromCity : String
  toCity : String
  distance : WithTop ℚ
  fromPrevalence : ℚ
  toPrevalence : ℚ
deriving DecidableEq

/-- The distance recorded for one segment by get_route_details (lines
184–196): the direct edge's distance when one exists, otherwise the total
distance of a fresh Dijkstra query with urgency 1.0, or 0 when that query
finds no (truthy) path.  The try/except around the query never fires: the
query is a total function. -/
def routeSegDistance (g : Graph) (a b : String) : WithTop ℚ :=
  match g.get_edge_data a b with
  | none =>
    let r := priority_dijkstra g a b 1
    if pyTruthy r.1 then r.2.1 else 0
  | some d => (d : WithTop ℚ)

/-- routing.py, get_route_details (lines 164–210).  For each consecutive pair,
record the `routeSegDistance` and the two endpoint prevalences.  The
dictionary accesses `graph.nodes[current]` / `graph.nodes[next_city]` raise
KeyError when the path mentions an identifier that is not a node: that
exception — the only one the engine can raise — is modelled by the `none`
result, propagated through the whole call exactly as the exception aborts the
whole Python call.  The record fields read `.get('prevalence', 0)`, whose
default never fires for a node present in the graph (the attribute is always
set). -/
def get_route_details (g : Graph) : List String → Option (List RouteSegment)
  | a :: b :: rest => do
    let pa ← g.prevalenceOf a
    let pb ← g.prevalenceOf b
    let tail ← get_route_details g (b :: rest)
    some ({ fromCity := a, toCity := b, distance := routeSegDistance g a b,
            fromPrevalence := pa, toPrevalence := pb } :: tail)
  | _ => some []

/-- routing.py, calculate_tour_metrics (lines 213–251): sum direct-edge
distance and edge priority weight over the consecutive pairs of the path,
silently skipping pairs with no direct edge (`if not edge_data: continue`).
The path argument is taken last so the list recursion is structural; the
summation order differs from Python's running totals only up to associativity
and commutativity of exact addition. -/
def calculate_tour_metrics (g : Graph) (urgency : ℚ) : List String → ℚ × WithTop ℚ
  | a :: b :: rest =>
    let t := calculate_tour_metrics g urgency (b :: rest)
    match g.get_edge_data a b with
    | none => t
    | some d =>
      (d + t.1,
        calculate_priority_weight d ((g.prevD a (1/2) + g.prevD b (1/2)) / 2) urgency + t.2)
  | _ => (0, 0)

/-- One step of the candidate scan of optimal_tour_routing (lines 292–307):
skip visited nodes, otherwise query Dijkstra and keep the candidate when the
query returns a truthy path with a strictly smaller cumulative weight than the
running best. -/
def pickNearestStep (g : Graph) (urgency : ℚ) (current : String) (visited : List String)
    (acc : Option String × WithTop ℚ) (nb : String) : Option String × WithTop ℚ :=
  if nb ∈ visited then acc
  else
    let r := priority_dijkstra g current nb urgency
    if pyTruthy r.1 ∧ r.2.2 < acc.2 then (some nb, r.2.2) else acc

/-- The candidate scan of optimal_tour_routing (lines 288–307): fold over all
nodes (the running best starts at `inf`, the running candidate at None). -/
def pickNearest (g : Graph) (urgency : ℚ) (current : String) (visited : List String) :
    Option String × WithTop ℚ :=
  g.nodeIds.foldl (pickNearestStep g urgency current visited) (none, ⊤)

/-- The while loop of optimal_tour_routing (lines 287–316), fueled (the fuel
passed by the wrapper is `g.nodeIds.length`, which the loop guard proves
sufficient: each iteration grows `visited` by one).  `len(all_cities)` is the
number of (distinct) node identifiers. -/
def tourLoopNearest (g : Graph) (urgency : ℚ) :
    ℕ → List String → List String → String → List String
  | 0, _, path, _ => path
  | fuel + 1, visited, path, current =>
    if visited.length < g.nodeIds.length then
      match (pickNearest g urgency current visited).1 with
      | none => path
      | some nb => tourLoopNearest g urgency fuel (nb :: visited) (path ++ [nb]) nb
    else path

/-- routing.py, optimal_tour_routing (lines 254–321): nearest-neighbor tour by
repeated Dijkstra queries, then tour metrics on the resulting path. -/
def optimal_tour_routing (g : Graph) (start_city : String) (urgency : ℚ) :
    Option (List String) × WithTop ℚ × WithTop ℚ :=
  if start_city ∉ g.nodeIds then (none, ⊤, ⊤)
  else
    let path := tourLoopNearest g urgency g.nodeIds.length [start_city] [start_city] start_city
    let m := calculate_tour_metrics g urgency path
    (some path, (m.1 : WithTop ℚ), m.2)

/-- Models `priority_score > best_priority` where the running best starts at
`-float('inf')` (modelled by `none`): every finite score beats it. -/
def beatsBest (score : ℚ) : Option ℚ → Bool
  | none => true
  | some b => decide (b < score)

/-- One step of the candidate scan of priority_tour_routing (lines 362–385):
keep the unvisited candidate maximizing `(prevalence × urgency) / distance`,
where the distance comes from a Dijkstra query with urgency fixed at 1.0 and
candidates whose query fails or returns distance 0 are skipped.  A distance of
`inf` passes the `> 0` guard in Python and yields score `x / inf = 0.0`;
`untop' 0` makes the modelled division return 0 in exactly that case. -/
def pickPriorityStep (g : Graph) (urgency : ℚ) (current : String) (visited : List String)
    (acc : Option String × Option ℚ) (cand : String) : Option String × Option ℚ :=
  if cand ∈ visited then acc
  else
    let r := priority_dijkstra g current cand 1
    if pyTruthy r.1 ∧ 0 < r.2.1 then
      let score := g.prevD cand (1/2) * urgency / r.2.1.untop' 0
      if beatsBest score acc.2 then (some cand, some score) else acc
    else acc

/-- The candidate scan of priority_tour_routing (lines 358–385): fold over all
nodes (the running best starts at `-inf`, the running candidate at None). -/
def pickPriorityCandidate (g : Graph) (urgency : ℚ) (current : String) (visited : List String) :
    Option String × Option ℚ :=
  g.nodeIds.foldl (pickPriorityStep g urgency current visited) (none, none)

/-- The while loop of priority_tour_routing (lines 357–394), fueled like
`tourLoopNearest`. -/
def tourLoopPriority (g : Graph) (urgency : ℚ) :
    ℕ → List String → List String → String → List String
  | 0, _, path, _ => path
  | fuel + 1, visited, path, current =>
    if visited.length < g.nodeIds.length then
      match (pickPriorityCandidate g urgency current visited).1 with
      | none => path
      | some nb => tourLoopPriority g urgency fuel (nb :: visited) (path ++ [nb]) nb
    else path

/-- routing.py, priority_tour_routing (lines 324–399): prevalence-density
greedy tour by repeated Dijkstra queries, then tour metrics. -/
def priority_tour_routing (g : Graph) (start_city : String) (urgency : ℚ) :
    Option (List String) × WithTop ℚ × WithTop ℚ :=
  if start_city ∉ g.nodeIds then (none, ⊤, ⊤)
  else
    let path := tourLoopPriority g urgency g.nodeIds.length [start_city] [start_city] start_city
    let m := calculate_tour_metrics g urgency path
    (some path, (m.1 : WithTop ℚ), m.2)

/-- The consecutive pairs of a node sequence. -/
def consecPairs (p : List String) : List (String × String) := p.zip p.tail

section ExampleGraphs

/-- A three-node example network: all prevalences 1, edges A–B (1 km),
B–C (1 km) and A–C (3 km), so the two-hop route A–B–C beats the direct A–C
edge in both distance and priority weight. -/
def exampleGraph : Graph :=
  ⟨[( "A", 1), ( "B", 1), ( "C", 1)], [( "A", "B", 1), ( "B", "C", 1), ( "A", "C", 3)]⟩

/-- A two-node network whose nodes both have prevalence 0: its single edge is
priced at infinity by the weight function, so the search treats B as
unreachable from A even though the edge exists. -/
def zeroPrevGraph : Graph := ⟨[( "A", 0), ( "B", 0)], [( "A", "B", 100)]⟩

/-- A one-node network. -/
def oneNodeGraph : Graph := ⟨[( "A", 1)], []⟩

/-- The single record produced by get_route_details on the path A, C of the
example network. -/
def exampleSegAC : RouteSegment := ⟨ "A", "C", ((3 : ℚ) : WithTop ℚ), 1, 1⟩

/-- The search state reached on `zeroPrevGraph` after the first loop iteration
finalizes the source A (the relaxation of B fails because the edge's priority
weight is infinite, so nothing is pushed and no predecessor is set). -/
def zeroPrevState : DijkstraState :=
  { pq := []
    best := fun n => if n = "A" then 0 else ⊤
    dist := fun n => if n = "A" then 0 else ⊤
    pred := fun _ => none
    visited := [ "A"] }

end ExampleGraphs

section BasicLemmas

/-- Helper: the last element of a list is a member. -/
lemma getLast?_mem_of_eq_some : ∀ {l : List String} {x : String},
    l.getLast? = some x → x ∈ l := by
  intro l
  induction l with
  | nil => intro x h; simp at h
  | cons a t ih =>
    intro x h
    cases t with
    | nil => simp at h; simp [h]
    | cons b t' =>
      rw [List.getLast?_cons_cons] at h
      exact List.mem_cons_of_mem a (ih h)

/-- Helper: a nonempty list has a last element. -/
lemma exists_getLast?_of_ne_nil {l : List String} (h : l ≠ []) :
    ∃ v, l.getLast? = some v := by
  cases hv : l.getLast? with
  | none => exact absurd (List.getLast?_eq_none_iff.mp hv) h
  | some v => exact ⟨v, rfl⟩

/-- Helper: filtering with a pointwise-stronger predicate keeps fewer
elements. -/
lemma length_filter_mono {l : List String} {p q : String → Bool}
    (h : ∀ x ∈ l, p x = true → q x = true) :
    (l.filter p).length ≤ (l.filter q).length := by
  induction l with
  | nil => simp
  | cons a t ih =>
    have ht : ∀ x ∈ t, p x = true → q x = true := fun x hx => h x (List.mem_cons_of_mem a hx)
    by_cases hp : p a = true
    · rw [List.filter_cons_of_pos hp, List.filter_cons_of_pos (h a (List.mem_cons_self a t) hp)]
      simpa using ih ht
    · rw [List.filter_cons_of_neg (by simpa using hp)]
      by_cases hq : q a = true
      · rw [List.filter_cons_of_pos hq]
        exact (ih ht).trans (Nat.le_succ _)
      · rw [List.filter_cons_of_neg (by simpa using hq)]
        exact ih ht

/-- Helper: strict version of `length_filter_mono` when some kept element is
dropped. -/
lemma length_filter_lt {l : List String} {p q : String → Bool} {u : String}
    (h : ∀ x ∈ l, p x = true → q x = true) (hu : u ∈ l)
    (hpu : p u = false) (hqu : q u = true) :
    (l.filter p).length < (l.filter q).length := by
  induction l with
  | nil => simp at hu
  | cons a t ih =>
    have ht : ∀ x ∈ t, p x = true → q x = true := fun x hx => h x (List.mem_cons_of_mem a hx)
    rcases List.mem_cons.mp hu with rfl | hut
    · rw [List.filter_cons_of_neg (by simp [hpu]), List.filter_cons_of_pos hqu]
      exact Nat.lt_succ_of_le (length_filter_mono ht)
    · by_cases hp : p a = true
      · rw [List.filter_cons_of_pos hp, List.filter_cons_of_pos (h a (List.mem_cons_self a t) hp)]
        simpa using ih ht hut
      · rw [List.filter_cons_of_neg (by simpa using hp)]
        by_cases hq : q a = true
        · rw [List.filter_cons_of_pos hq]
          exact (ih ht hut).trans (Nat.lt_succ_self _)
        · rw [List.filter_cons_of_neg (by simpa using hq)]
          exact ih ht hut

/-- `entryLt` is irreflexive. -/
lemma entryLt_irrefl (a : HeapEntry) : ¬ entryLt a a := by
  unfold entryLt
  rintro (h | ⟨-, h | ⟨-, h⟩⟩) <;> exact lt_irrefl _ h

/-- `entryLt` is transitive. -/
lemma entryLt_trans {a b c : HeapEntry} (hab : entryLt a b) (hbc : entryLt b c) :
    entryLt a c := by
  unfold entryLt at *
  rcases hab with h1 | ⟨e1, h1⟩
  · rcases hbc with h2 | ⟨e2, h2⟩
    · exact Or.inl (h1.trans h2)
    · exact Or.inl (e2 ▸ h1)
  · rcases hbc with h2 | ⟨e2, h2⟩
    · exact Or.inl (e1 ▸ h2)
    · refine Or.inr ⟨e1.trans e2, ?_⟩
      rcases h1 with h1 | ⟨f1, h1⟩
      · rcases h2 with h2 | ⟨f2, h2⟩
        · exact Or.inl (h1.trans h2)
        · exact Or.inl (f2 ▸ h1)
      · rcases h2 with h2 | ⟨f2, h2⟩
        · exact Or.inl (f1 ▸ h2)
        · exact Or.inr ⟨f1.trans f2, h1.trans h2⟩

/-- `entryLt` is connex: two incomparable entries are equal. -/
lemma entryLt_connex {a b : HeapEntry} (hab : ¬ entryLt a b) (hba : ¬ entryLt b a) :
    a = b := by
  unfold entryLt at hab hba
  push_neg at hab hba
  obtain ⟨h1, h1'⟩ := hab
  obtain ⟨h2, h2'⟩ := hba
  have e1 : a.1 = b.1 := le_antisymm h2 h1
  obtain ⟨h3, h3'⟩ := h1' e1
  obtain ⟨h4, h4'⟩ := h2' e1.symm
  have e2 : a.2.1 = b.2.1 := le_antisymm h4 h3
  have e3 : a.2.2 = b.2.2 := le_antisymm (h4' e2.symm) (h3' e2)
  exact Prod.ext e1 (Prod.ext e2 e3)

/-- The running minimum is one of the inspected entries. -/
lemma pqMinAux_mem : ∀ (l : List HeapEntry) (m : HeapEntry), pqMinAux m l ∈ m :: l := by
  intro l
  induction l with
  | nil => intro m; simp [pqMinAux]
  | cons e es ih =>
    intro m
    rw [pqMinAux]
    by_cases h : entryLt e m
    · rw [if_pos h]
      rcases List.mem_cons.mp (ih e) with h' | h'
      · simp [h']
      · simp [List.mem_cons_of_mem _ h']
    · rw [if_neg h]
      rcases List.mem_cons.mp (ih m) with h' | h'
      · simp [h']
      · simp [List.mem_cons_of_mem _ h']

/-- No inspected entry is strictly below the running minimum. -/
lemma pqMinAux_min : ∀ (l : List HeapEntry) (m : HeapEntry),
    ∀ x ∈ m :: l, ¬ entryLt x (pqMinAux m l) := by
  intro l
  induction l with
  | nil =>
    intro m x hx
    rw [List.mem_singleton] at hx
    subst hx
    exact entryLt_irrefl _
  | cons e es ih =>
    intro m x hx
    rw [pqMinAux]
    by_cases h : entryLt e m
    · rw [if_pos h]
      rcases List.mem_cons.mp hx with hxm | hx'
      · intro hlt
        rw [hxm] at hlt
        exact ih e e (List.mem_cons_self e es) (entryLt_trans h hlt)
      · exact ih e x hx'
    · rw [if_neg h]
      rcases List.mem_cons.mp hx with hxm | hx'
      · intro hlt
        rw [hxm] at hlt
        exact ih m m (List.mem_cons_self m es) hlt
      · rcases List.mem_cons.mp hx' with hxe | hx''
        · intro hlt
          rw [hxe] at hlt
          have hm : ¬ entryLt m (pqMinAux m es) := ih m m (List.mem_cons_self m es)
          by_cases hme : entryLt m e
          · exact hm (entryLt_trans hme hlt)
          · obtain rfl := entryLt_connex h hme
            exact hm hlt
        · exact ih m x (List.mem_cons_of_mem m hx'')

/-- Removing a present entry yields a permutation complement. -/
lemma eraseEntry_perm : ∀ {l : List HeapEntry} {e : HeapEntry}, e ∈ l →
    l.Perm (e :: eraseEntry l e) := by
  intro l
  induction l with
  | nil => intro e h; simp at h
  | cons x xs ih =>
    intro e h
    rw [eraseEntry]
    by_cases hx : x = e
    · rw [if_pos hx, hx]
    · rw [if_neg hx]
      have he : e ∈ xs := by
        rcases List.mem_cons.mp h with h' | h'
        · exact absurd h'.symm hx
        · exact h'
      exact ((ih he).cons x).trans (List.Perm.swap e x _)

/-- popMin returns `none` exactly on the empty queue. -/
lemma popMin_eq_none {l : List HeapEntry} : popMin l = none ↔ l = [] := by
  cases l <;> simp [popMin]

/-- Specification of a successful pop: the entry is in the queue, the rest is
the queue minus one occurrence of it, and no queue entry is strictly below
it. -/
lemma popMin_spec {l : List HeapEntry} {e : HeapEntry} {rest : List HeapEntry}
    (h : popMin l = some (e, rest)) :
    e ∈ l ∧ rest = eraseEntry l e ∧ ∀ x ∈ l, ¬ entryLt x e := by
  cases l with
  | nil => simp [popMin] at h
  | cons a as =>
    simp only [popMin, Option.some.injEq, Prod.mk.injEq] at h
    obtain ⟨he, hrest⟩ := h
    subst he
    exact ⟨pqMinAux_mem as a, hrest.symm, pqMinAux_min as a⟩

/-- The queue is a permutation of the popped entry consed onto the rest. -/
lemma popMin_perm {l : List HeapEntry} {e : HeapEntry} {rest : List HeapEntry}
    (h : popMin l = some (e, rest)) : l.Perm (e :: rest) := by
  obtain ⟨he, hrest, -⟩ := popMin_spec h
  rw [hrest]
  exact eraseEntry_perm he

/-- Popping shortens the queue by one. -/
lemma popMin_length {l : List HeapEntry} {e : HeapEntry} {rest : List HeapEntry}
    (h : popMin l = some (e, rest)) : rest.length + 1 = l.length := by
  have := (popMin_perm h).length_eq
  simp at this
  omega

/-- Entries of the rest were entries of the queue. -/
lemma popMin_rest_subset {l : List HeapEntry} {e : HeapEntry} {rest : List HeapEntry}
    (h : popMin l = some (e, rest)) : ∀ x ∈ rest, x ∈ l := by
  intro x hx
  exact (popMin_perm h).mem_iff.mpr (List.mem_cons_of_mem e hx)

/-- A queue entry distinct from the popped one stays in the rest. -/
lemma popMin_mem_rest {l : List HeapEntry} {e : HeapEntry} {rest : List HeapEntry}
    (h : popMin l = some (e, rest)) {x : HeapEntry} (hx : x ∈ l) (hne : x ≠ e) :
    x ∈ rest := by
  rcases List.mem_cons.mp ((popMin_perm h).mem_iff.mp hx) with h' | h'
  · exact absurd h' hne
  · exact h'

/-- The popped entry has the least weight component. -/
lemma popMin_min_weight {l : List HeapEntry} {e : HeapEntry} {rest : List HeapEntry}
    (h : popMin l = some (e, rest)) : ∀ x ∈ l, e.1 ≤ x.1 := by
  intro x hx
  have := (popMin_spec h).2.2 x hx
  unfold entryLt at this
  push_neg at this
  exact this.1

end BasicLemmas

section GraphLemmas

variable {g : Graph}

/-- A direct edge makes its opposite endpoint a neighbor. -/
lemma mem_neighbors_of_hasEdge {u v : String} (h : g.hasEdge u v) :
    v ∈ g.neighbors u := by
  unfold Graph.hasEdge Graph.get_edge_data at h
  rw [Option.isSome_map'] at h
  rw [List.find?_isSome] at h
  obtain ⟨e, he, hpred⟩ := h
  simp only [Bool.or_eq_true, Bool.and_eq_true, beq_iff_eq] at hpred
  unfold Graph.neighbors
  rw [List.mem_filterMap]
  rcases hpred with ⟨h1, h2⟩ | ⟨h1, h2⟩
  · exact ⟨e, he, by simp [h1, h2]⟩
  · refine ⟨e, he, ?_⟩
    by_cases hvu : e.1 = u
    · simp only [hvu, beq_self_eq_true, if_true]
      rw [h2, ← h1, hvu]
    · rw [if_neg (by simpa using hvu), if_pos (by simpa using h2), h1]

/-- A neighbor is joined by a direct edge. -/
lemma hasEdge_of_mem_neighbors {u v : String} (h : v ∈ g.neighbors u) :
    g.hasEdge u v := by
  unfold Graph.neighbors at h
  rw [List.mem_filterMap] at h
  obtain ⟨e, he, hout⟩ := h
  unfold Graph.hasEdge Graph.get_edge_data
  rw [Option.isSome_map', List.find?_isSome]
  refine ⟨e, he, ?_⟩
  by_cases h1 : e.1 = u
  · simp only [h1, beq_self_eq_true, if_true, Option.some.injEq] at hout
    simp [h1, hout]
  · simp only [beq_iff_eq, h1, if_false] at hout
    by_cases h2 : e.2.1 = u
    · simp only [h2, beq_self_eq_true, if_true, Option.some.injEq] at hout
      simp [h2, hout]
    · simp [h2] at hout

/-- The neighbor list is no longer than the edge list. -/
lemma neighbors_length_le (u : String) : (g.neighbors u).length ≤ g.edges.length :=
  List.length_filterMap_le _ _

/-- An identifier in no edge has no neighbors. -/
lemma neighbors_eq_nil_of_not_mem_allIds {u : String} (h : u ∉ g.allIds) :
    g.neighbors u = [] := by
  unfold Graph.allIds at h
  rw [List.mem_append] at h
  push_neg at h
  obtain ⟨-, h2⟩ := h
  unfold Graph.neighbors
  rw [List.filterMap_eq_nil_iff]
  intro e he
  have hm : u ∉ [e.1, e.2.1] := fun hm => h2 (List.mem_flatMap.mpr ⟨e, he, hm⟩)
  have n1 : e.1 ≠ u := by intro hh; exact hm (by simp [hh])
  have n2 : e.2.1 ≠ u := by intro hh; exact hm (by simp [hh])
  simp [n1, n2]

/-- A stored prevalence is nonnegative for a well-formed graph (the 0.5
default is nonnegative as well). -/
lemma prevD_nonneg (hg : g.WF) (n : String) : 0 ≤ g.prevD n (1/2) := by
  unfold Graph.prevD Graph.prevalenceOf
  cases hf : g.nodes.find? (fun r => r.1 == n) with
  | none => norm_num
  | some r =>
    have hr := List.mem_of_find?_eq_some hf
    simpa using (hg.2.2.2 r hr).1

/-- A stored prevalence is at most 1 for a well-formed graph. -/
lemma prevD_le_one (hg : g.WF) (n : String) : g.prevD n (1/2) ≤ 1 := by
  unfold Graph.prevD Graph.prevalenceOf
  cases hf : g.nodes.find? (fun r => r.1 == n) with
  | none => norm_num
  | some r =>
    have hr := List.mem_of_find?_eq_some hf
    simpa using (hg.2.2.2 r hr).2

/-- A stored road distance is nonnegative for a well-formed graph (the
`get('distance', 0)` default is 0). -/
lemma road_nonneg (hg : g.WF) (u v : String) : 0 ≤ (g.get_edge_data u v).getD 0 := by
  unfold Graph.get_edge_data
  cases hf : g.edges.find? (fun e => (e.1 == u && e.2.1 == v) || (e.1 == v && e.2.1 == u)) with
  | none => norm_num
  | some e =>
    have he := List.mem_of_find?_eq_some hf
    simpa using le_of_lt (hg.2.1 e he).2.2.2

/-- The edge cost charged by the relaxation is nonnegative for a well-formed
graph and a nonnegative urgency. -/
lemma edgeCost_nonneg (hg : g.WF) {urg : ℚ} (hurg : 0 ≤ urg) (u v : String) :
    0 ≤ g.edgeCost urg u v := by
  unfold Graph.edgeCost calculate_priority_weight
  split
  · exact le_top
  · rename_i hcond
    push_neg at hcond
    rw [← WithTop.coe_zero, WithTop.coe_le_coe]
    have havg : 0 ≤ (g.prevD u (1/2) + g.prevD v (1/2)) / 2 := by
      have := prevD_nonneg hg u
      have := prevD_nonneg hg v
      positivity
    have havg' : 0 < (g.prevD u (1/2) + g.prevD v (1/2)) / 2 :=
      lt_of_le_of_ne havg (Ne.symm hcond.1)
    have hurg' : 0 < urg := lt_of_le_of_ne hurg (Ne.symm hcond.2)
    have hroad := road_nonneg hg u v
    positivity

/-- Cumulative priority weight of any node sequence is nonnegative. -/
lemma pathWeight_nonneg (hg : g.WF) {urg : ℚ} (hurg : 0 ≤ urg) :
    ∀ p : List String, 0 ≤ g.pathWeight urg p := by
  intro p
  induction p with
  | nil => simp [Graph.pathWeight]
  | cons a t ih =>
    cases t with
    | nil => simp [Graph.pathWeight]
    | cons b t' =>
      rw [Graph.pathWeight]
      exact add_nonneg (edgeCost_nonneg hg hurg a b) ih

/-- Appending one step adds that step's edge cost to the cumulative weight. -/
lemma pathWeight_concat {urg : ℚ} :
    ∀ {p : List String} {v z : String}, p.getLast? = some v →
      g.pathWeight urg (p ++ [z]) = g.pathWeight urg p + g.edgeCost urg v z := by
  intro p
  induction p with
  | nil => intro v z h; simp at h
  | cons a t ih =>
    intro v z h
    cases t with
    | nil =>
      simp only [List.getLast?_singleton, Option.some.injEq] at h
      subst h
      simp [Graph.pathWeight, add_comm]
    | cons b t' =>
      rw [List.getLast?_cons_cons] at h
      have hrec := ih (v := v) (z := z) h
      simp only [List.cons_append] at hrec ⊢
      have e1 : g.pathWeight urg (a :: b :: (t' ++ [z])) =
          g.edgeCost urg a b + g.pathWeight urg (b :: (t' ++ [z])) := rfl
      have e2 : g.pathWeight urg (a :: b :: t') =
          g.edgeCost urg a b + g.pathWeight urg (b :: t') := rfl
      rw [e1, e2, hrec, add_assoc]

/-- Extending a path never lowers its cumulative weight (well-formed graph,
nonnegative urgency). -/
lemma pathWeight_le_concat (hg : g.WF) {urg : ℚ} (hurg : 0 ≤ urg)
    (p : List String) (z : String) :
    g.pathWeight urg p ≤ g.pathWeight urg (p ++ [z]) := by
  cases hp : p.getLast? with
  | none =>
    rw [List.getLast?_eq_none_iff] at hp
    subst hp
    simp [Graph.pathWeight]
  | some v =>
    rw [pathWeight_concat hp]
    exact le_add_of_nonneg_right (edgeCost_nonneg hg hurg v z)

end GraphLemmas

section MeasureLemmas

/-- Visiting one more node cannot raise the unvisited count. -/
lemma unvisitedCount_cons_le (g : Graph) (u : String) (vis : List String) :
    unvisitedCount g (u :: vis) ≤ unvisitedCount g vis := by
  apply length_filter_mono
  intro x _ hx
  rw [decide_eq_true_eq] at hx ⊢
  exact fun hm => hx (List.mem_cons_of_mem u hm)

/-- Visiting an unvisited graph identifier strictly lowers the unvisited
count. -/
lemma unvisitedCount_cons_lt (g : Graph) {u : String} (hu : u ∈ g.allIds)
    {vis : List String} (hnv : u ∉ vis) :
    unvisitedCount g (u :: vis) < unvisitedCount g vis := by
  apply length_filter_lt (u := u)
  · intro x _ hx
    rw [decide_eq_true_eq] at hx ⊢
    exact fun hm => hx (List.mem_cons_of_mem u hm)
  · exact hu
  · simp
  · simp [hnv]

/-- Relaxation does not change the visited set. -/
lemma relaxOne_visited (g : Graph) (urg : ℚ) (u : String) (w : WithTop ℚ) (d : ℚ)
    (s : DijkstraState) (v : String) :
    (relaxOne g urg u w d s v).visited = s.visited := by
  simp only [relaxOne]
  split
  · rfl
  · split <;> rfl

/-- Relaxation pushes at most one entry. -/
lemma relaxOne_pq_len (g : Graph) (urg : ℚ) (u : String) (w : WithTop ℚ) (d : ℚ)
    (s : DijkstraState) (v : String) :
    (relaxOne g urg u w d s v).pq.length ≤ s.pq.length + 1 := by
  simp only [relaxOne]
  split
  · exact Nat.le_succ _
  · split
    · simp
    · exact Nat.le_succ _

/-- The relaxation fold leaves the visited set unchanged. -/
lemma foldRelax_visited (g : Graph) (urg : ℚ) (u : String) (w : WithTop ℚ) (d : ℚ) :
    ∀ (ns : List String) (s : DijkstraState),
      (ns.foldl (fun t v => relaxOne g urg u w d t v) s).visited = s.visited := by
  intro ns
  induction ns with
  | nil => intro s; rfl
  | cons v vs ih => intro s; rw [List.foldl_cons, ih, relaxOne_visited]

/-- The relaxation fold pushes at most one entry per processed node. -/
lemma foldRelax_pq_len (g : Graph) (urg : ℚ) (u : String) (w : WithTop ℚ) (d : ℚ) :
    ∀ (ns : List String) (s : DijkstraState),
      (ns.foldl (fun t v => relaxOne g urg u w d t v) s).pq.length ≤
        s.pq.length + ns.length := by
  intro ns
  induction ns with
  | nil => intro s; simp
  | cons v vs ih =>
    intro s
    rw [List.foldl_cons]
    calc (vs.foldl (fun t v => relaxOne g urg u w d t v) (relaxOne g urg u w d s v)).pq.length
        ≤ (relaxOne g urg u w d s v).pq.length + vs.length := ih _
      _ ≤ s.pq.length + 1 + vs.length := by
          have := relaxOne_pq_len g urg u w d s v
          omega
      _ = s.pq.length + (v :: vs).length := by simp [Nat.add_assoc, Nat.add_comm 1 _]

/-- Skipping an already-visited pop strictly lowers the loop variant. -/
lemma dmeasure_skip_lt (g : Graph) {s : DijkstraState} {e : HeapEntry}
    {rest : List HeapEntry} (h : popMin s.pq = some (e, rest)) :
    dmeasure g { s with pq := rest } < dmeasure g s := by
  unfold dmeasure
  have := popMin_length h
  dsimp only
  omega

/-- Finalizing a node (without relaxing) strictly lowers the loop variant. -/
lemma dmeasure_visit_lt (g : Graph) {s : DijkstraState} {e : HeapEntry}
    {rest : List HeapEntry} (h : popMin s.pq = some (e, rest)) (u : String) :
    dmeasure g { s with pq := rest, visited := u :: s.visited } < dmeasure g s := by
  unfold dmeasure
  have h1 := popMin_length h
  have h2 := Nat.mul_le_mul_left (g.edges.length + 2) (unvisitedCount_cons_le g u s.visited)
  dsimp only
  omega

/-- Finalizing a node and relaxing its neighbors strictly lowers the loop
variant. -/
lemma dmeasure_relax_lt (g : Graph) (urg : ℚ) {s : DijkstraState} {e : HeapEntry}
    {rest : List HeapEntry} (h : popMin s.pq = some (e, rest))
    (hu : e.2.2 ∉ s.visited) :
    dmeasure g (relaxNeighbors g urg e.2.2 e.1 e.2.1
      { s with pq := rest, visited := e.2.2 :: s.visited }) < dmeasure g s := by
  set u := e.2.2 with hu_def
  set s1 : DijkstraState := { s with pq := rest, visited := u :: s.visited } with hs1
  have hvis : (relaxNeighbors g urg u e.1 e.2.1 s1).visited = u :: s.visited := by
    rw [relaxNeighbors, foldRelax_visited]
  have hlen : (relaxNeighbors g urg u e.1 e.2.1 s1).pq.length ≤
      rest.length + (g.neighbors u).length := by
    rw [relaxNeighbors]
    exact foldRelax_pq_len g urg u e.1 e.2.1 _ s1
  have hpop := popMin_length h
  unfold dmeasure
  rw [hvis]
  by_cases hmem : u ∈ g.allIds
  · have hlt := unvisitedCount_cons_lt g hmem hu
    have key : (g.edges.length + 2) * unvisitedCount g (u :: s.visited) +
        (g.edges.length + 2) ≤ (g.edges.length + 2) * unvisitedCount g s.visited := by
      calc (g.edges.length + 2) * unvisitedCount g (u :: s.visited) + (g.edges.length + 2)
          = (g.edges.length + 2) * (unvisitedCount g (u :: s.visited) + 1) := by ring
        _ ≤ (g.edges.length + 2) * unvisitedCount g s.visited :=
            Nat.mul_le_mul_left _ hlt
    have hnb := neighbors_length_le (g := g) u
    omega
  · have hnil := neighbors_eq_nil_of_not_mem_allIds (g := g) hmem
    rw [hnil] at hlen
    simp only [List.length_nil] at hlen
    have hle := Nat.mul_le_mul_left (g.edges.length + 2)
      (unvisitedCount_cons_le g u s.visited)
    omega

end MeasureLemmas

section Invariant

/-- The edges out of `v` have all been relaxed: every unvisited direct
neighbor's best weight is at most `v`'s best weight plus the edge cost. -/
def RelaxedAt (g : Graph) (urg : ℚ) (s : DijkstraState) (v : String) : Prop :=
  ∀ z, g.hasEdge v z → z ∉ s.visited → s.best z ≤ s.best v + g.edgeCost urg v z

/-- The loop invariant of the Dijkstra main loop, except for the relaxation
property (tracked separately because it is restored gradually while the
neighbor fold of the freshly finalized node runs). -/
structure LoopInv (g : Graph) (urg : ℚ) (src : String) (s : DijkstraState) : Prop where
  src_best : s.best src = 0
  src_pred : s.pred src = none
  src_mem : src ∈ s.visited ∨ ((0 : WithTop ℚ), (0 : ℚ), src) ∈ s.pq
  nodupV : s.visited.Nodup
  pq_lb : ∀ e ∈ s.pq, s.best e.2.2 ≤ e.1
  pq_nonneg : ∀ e ∈ s.pq, (0 : WithTop ℚ) ≤ e.1
  frontier : ∀ z, z ∉ s.visited → s.best z < ⊤ → ∃ dz : ℚ, (s.best z, dz, z) ∈ s.pq
  le_path : ∀ v ∈ s.visited, ∀ p, List.Chain' g.hasEdge p → p.head? = some src →
    p.getLast? = some v → s.best v ≤ g.pathWeight urg p
  pred_vis : ∀ x v, s.pred x = some v → v ∈ s.visited ∧ x ≠ src
  pred_fin : ∀ x, x ≠ src → s.best x < ⊤ → s.pred x ≠ none
  pred_wt : ∀ x v, s.pred x = some v → g.hasEdge v x ∧
    s.best x = s.best v + g.edgeCost urg v x ∧ s.best x < ⊤
  pred_rank : ∀ x v, s.pred x = some v → x ∈ s.visited →
    s.visited.indexOf x < s.visited.indexOf v

/-- The full invariant: the loop invariant plus every visited node fully
relaxed. -/
def DijkstraInv (g : Graph) (urg : ℚ) (src : String) (s : DijkstraState) : Prop :=
  LoopInv g urg src s ∧ ∀ v ∈ s.visited, RelaxedAt g urg s v

/-- Case analysis on one relaxation step: skipped (visited neighbor), no
improvement, or an update with the explicit new state. -/
lemma relaxOne_cases (g : Graph) (urg : ℚ) (u : String) (w : WithTop ℚ) (d : ℚ)
    (s : DijkstraState) (v : String) :
    (v ∈ s.visited ∧ relaxOne g urg u w d s v = s) ∨
    (v ∉ s.visited ∧ ¬ (w + g.edgeCost urg u v < s.best v) ∧
      relaxOne g urg u w d s v = s) ∨
    (v ∉ s.visited ∧ (w + g.edgeCost urg u v < s.best v) ∧
      relaxOne g urg u w d s v =
        { pq := (w + g.edgeCost urg u v, d + (g.get_edge_data u v).getD 0, v) :: s.pq
          best := fun x => if x = v then w + g.edgeCost urg u v else s.best x
          dist := fun x => if x = v then
              ((d + (g.get_edge_data u v).getD 0 : ℚ) : WithTop ℚ) else s.dist x
          pred := fun x => if x = v then some u else s.pred x
          visited := s.visited }) := by
  by_cases h1 : v ∈ s.visited
  · exact Or.inl ⟨h1, by simp only [relaxOne, if_pos h1]⟩
  · by_cases h2 : w + g.edgeCost urg u v < s.best v
    · refine Or.inr (Or.inr ⟨h1, h2, ?_⟩)
      simp only [relaxOne, if_neg h1, if_pos h2]
    · refine Or.inr (Or.inl ⟨h1, h2, ?_⟩)
      simp only [relaxOne, if_neg h1, if_neg h2]

/-- Relaxation never raises any best weight. -/
lemma relaxOne_best_le (g : Graph) (urg : ℚ) (u : String) (w : WithTop ℚ) (d : ℚ)
    (s : DijkstraState) (v x : String) :
    (relaxOne g urg u w d s v).best x ≤ s.best x := by
  rcases relaxOne_cases g urg u w d s v with ⟨-, he⟩ | ⟨-, -, he⟩ | ⟨-, hlt, he⟩
  · rw [he]
  · rw [he]
  · rw [he]
    dsimp only
    by_cases hx : x = v
    · rw [if_pos hx, hx]
      exact le_of_lt hlt
    · rw [if_neg hx]

/-- Relaxation leaves the best weight of a visited node unchanged. -/
lemma relaxOne_best_eq_of_mem (g : Graph) (urg : ℚ) (u : String) (w : WithTop ℚ) (d : ℚ)
    (s : DijkstraState) (v : String) {x : String} (hx : x ∈ s.visited) :
    (relaxOne g urg u w d s v).best x = s.best x := by
  rcases relaxOne_cases g urg u w d s v with ⟨-, he⟩ | ⟨-, -, he⟩ | ⟨hv, -, he⟩
  · rw [he]
  · rw [he]
  · rw [he]
    dsimp only
    have hxv : x ≠ v := fun h => hv (h ▸ hx)
    rw [if_neg hxv]

/-- One relaxation step preserves the loop invariant, the relaxedness of other
visited nodes, and yields the relaxation bound for the processed neighbor. -/
lemma relaxOne_preserves {g : Graph} (hg : g.WF) {urg : ℚ} (hurg : 0 ≤ urg)
    {src u v : String} {w : WithTop ℚ} {d : ℚ} {s : DijkstraState}
    (hinv : LoopInv g urg src s)
    (hrel : ∀ v' ∈ s.visited, v' ≠ u → RelaxedAt g urg s v')
    (huv : u ∈ s.visited) (hbu : s.best u = w) (hw0 : 0 ≤ w)
    (hedge : g.hasEdge u v) :
    LoopInv g urg src (relaxOne g urg u w d s v) ∧
    (∀ v' ∈ (relaxOne g urg u w d s v).visited, v' ≠ u →
      RelaxedAt g urg (relaxOne g urg u w d s v) v') ∧
    (relaxOne g urg u w d s v).best u = w ∧
    ((relaxOne g urg u w d s v).best v ≤ w + g.edgeCost urg u v ∨ v ∈ s.visited) := by
  rcases relaxOne_cases g urg u w d s v with ⟨hv, he⟩ | ⟨hv, hnlt, he⟩ | ⟨hv, hlt, he⟩
  · rw [he]
    exact ⟨hinv, hrel, hbu, Or.inr hv⟩
  · rw [he]
    exact ⟨hinv, hrel, hbu, Or.inl (not_lt.mp hnlt)⟩
  · -- the update case
    have hcost := edgeCost_nonneg hg hurg u v
    have hnw0 : (0 : WithTop ℚ) ≤ w + g.edgeCost urg u v := add_nonneg hw0 hcost
    have hvsrc : v ≠ src := by
      intro h
      rw [h, hinv.src_best] at hlt
      rw [h] at hnw0
      exact absurd hlt (not_lt.mpr hnw0)
    have huv' : u ≠ v := fun h => hv (h ▸ huv)
    have hnwtop : w + g.edgeCost urg u v < ⊤ := lt_of_lt_of_le hlt le_top
    rw [he]
    refine ⟨?_, ?_, ?_, ?_⟩
    · constructor
      · dsimp only
        rw [if_neg (Ne.symm hvsrc)]
        exact hinv.src_best
      · dsimp only
        rw [if_neg (Ne.symm hvsrc)]
        exact hinv.src_pred
      · dsimp only
        rcases hinv.src_mem with h | h
        · exact Or.inl h
        · exact Or.inr (List.mem_cons_of_mem _ h)
      · exact hinv.nodupV
      · dsimp only
        intro e hmem
        rcases List.mem_cons.mp hmem with rfl | hold
        · dsimp only
          rw [if_pos rfl]
        · by_cases hev : e.2.2 = v
          · rw [if_pos hev]
            calc w + g.edgeCost urg u v ≤ s.best e.2.2 := by rw [hev]; exact le_of_lt hlt
              _ ≤ e.1 := hinv.pq_lb e hold
          · rw [if_neg hev]
            exact hinv.pq_lb e hold
      · dsimp only
        intro e hmem
        rcases List.mem_cons.mp hmem with rfl | hold
        · exact hnw0
        · exact hinv.pq_nonneg e hold
      · dsimp only
        intro z hz hztop
        by_cases hzv : z = v
        · rw [hzv, if_pos rfl]
          exact ⟨d + (g.get_edge_data u v).getD 0, List.mem_cons_self _ _⟩
        · rw [if_neg hzv] at hztop ⊢
          obtain ⟨dz, hdz⟩ := hinv.frontier z hz hztop
          exact ⟨dz, List.mem_cons_of_mem _ hdz⟩
      · dsimp only
        intro v' hv' p hc hh hl
        have hne : v' ≠ v := fun h => hv (h ▸ hv')
        rw [if_neg hne]
        exact hinv.le_path v' hv' p hc hh hl
      · dsimp only
        intro x v₀ hpx
        by_cases hxv : x = v
        · rw [if_pos hxv] at hpx
          obtain rfl : v₀ = u := by injection hpx with h; exact h.symm
          exact ⟨huv, hxv ▸ hvsrc⟩
        · rw [if_neg hxv] at hpx
          exact hinv.pred_vis x v₀ hpx
      · dsimp only
        intro x hxsrc hxtop
        by_cases hxv : x = v
        · rw [if_pos hxv]
          simp
        · rw [if_neg hxv] at hxtop ⊢
          exact hinv.pred_fin x hxsrc hxtop
      · dsimp only
        intro x v₀ hpx
        by_cases hxv : x = v
        · rw [if_pos hxv] at hpx
          obtain rfl : v₀ = u := by injection hpx with h; exact h.symm
          subst hxv
          rw [if_pos rfl, if_neg huv', hbu]
          exact ⟨hedge, rfl, hnwtop⟩
        · rw [if_neg hxv] at hpx
          obtain ⟨he1, he2, he3⟩ := hinv.pred_wt x v₀ hpx
          have hv₀ : v₀ ∈ s.visited := (hinv.pred_vis x v₀ hpx).1
          have hne : v₀ ≠ v := fun h => hv (h ▸ hv₀)
          rw [if_neg hxv, if_neg hne]
          exact ⟨he1, he2, he3⟩
      · dsimp only
        intro x v₀ hpx hxmem
        by_cases hxv : x = v
        · exact absurd (hxv ▸ hxmem) hv
        · rw [if_neg hxv] at hpx
          exact hinv.pred_rank x v₀ hpx hxmem
    · intro v' hv' hv'u
      unfold RelaxedAt
      dsimp only
      intro z hz hznv
      have hne : v' ≠ v := fun h => hv (h ▸ hv')
      rw [if_neg hne]
      have hb := hrel v' hv' hv'u z hz hznv
      by_cases hzv : z = v
      · rw [if_pos hzv]
        refine le_trans (le_of_lt ?_) hb
        rw [hzv]
        exact hlt
      · rw [if_neg hzv]
        exact hb
    · dsimp only
      rw [if_neg huv']
      exact hbu
    · dsimp only
      rw [if_pos rfl]
      exact Or.inl le_rfl

/-- Best weights never increase across the whole relaxation fold. -/
lemma foldRelax_best_le (g : Graph) (urg : ℚ) (u : String) (w : WithTop ℚ) (d : ℚ) :
    ∀ (ns : List String) (s : DijkstraState) (x : String),
      (ns.foldl (fun t v => relaxOne g urg u w d t v) s).best x ≤ s.best x := by
  intro ns
  induction ns with
  | nil => intro s x; exact le_rfl
  | cons v vs ih =>
    intro s x
    rw [List.foldl_cons]
    exact le_trans (ih _ x) (relaxOne_best_le g urg u w d s v x)

/-- The neighbor fold preserves the loop invariant and establishes the
relaxation bound for every processed neighbor. -/
lemma foldRelax_preserves {g : Graph} (hg : g.WF) {urg : ℚ} (hurg : 0 ≤ urg)
    {src u : String} {w : WithTop ℚ} {d : ℚ} :
    ∀ (ns : List String) (s : DijkstraState),
      (∀ n ∈ ns, n ∈ g.neighbors u) →
      LoopInv g urg src s →
      (∀ v' ∈ s.visited, v' ≠ u → RelaxedAt g urg s v') →
      u ∈ s.visited → s.best u = w → 0 ≤ w →
      LoopInv g urg src (ns.foldl (fun t v => relaxOne g urg u w d t v) s) ∧
      (∀ v' ∈ (ns.foldl (fun t v => relaxOne g urg u w d t v) s).visited, v' ≠ u →
        RelaxedAt g urg (ns.foldl (fun t v => relaxOne g urg u w d t v) s) v') ∧
      (ns.foldl (fun t v => relaxOne g urg u w d t v) s).best u = w ∧
      (∀ z ∈ ns, z ∉ s.visited →
        (ns.foldl (fun t v => relaxOne g urg u w d t v) s).best z ≤
          w + g.edgeCost urg u z) := by
  intro ns
  induction ns with
  | nil =>
    intro s _ hinv hrel huv hbu hw0
    refine ⟨hinv, ?_, hbu, ?_⟩
    · intro v' hv' hv'u
      exact hrel v' hv' hv'u
    · intro z hz
      simp at hz
  | cons z₀ ns' ih =>
    intro s hns hinv hrel huv hbu hw0
    have hedge : g.hasEdge u z₀ :=
      hasEdge_of_mem_neighbors (hns z₀ (List.mem_cons_self _ _))
    obtain ⟨hinv', hrel', hbu', hbound⟩ :=
      relaxOne_preserves hg hurg hinv hrel huv hbu hw0 hedge
    rw [List.foldl_cons]
    set s' := relaxOne g urg u w d s z₀ with hs'
    have hvis' : s'.visited = s.visited := relaxOne_visited g urg u w d s z₀
    have huv' : u ∈ s'.visited := hvis' ▸ huv
    have hrel'' : ∀ v' ∈ s'.visited, v' ≠ u → RelaxedAt g urg s' v' := by
      intro v' hv' hv'u
      exact hrel' v' hv' hv'u
    obtain ⟨hinvf, hrelf, hbuf, hboundf⟩ :=
      ih s' (fun n hn => hns n (List.mem_cons_of_mem _ hn)) hinv' hrel'' huv' hbu' hw0
    refine ⟨hinvf, hrelf, hbuf, ?_⟩
    intro z hz hznv
    rcases List.mem_cons.mp hz with hz0 | hz'
    · rw [hz0]
      rcases hbound with hb | hb
      · calc (ns'.foldl (fun t v => relaxOne g urg u w d t v) s').best z₀
            ≤ s'.best z₀ := foldRelax_best_le g urg u w d ns' s' z₀
          _ ≤ w + g.edgeCost urg u z₀ := hb
      · exact absurd hb (hz0 ▸ hznv)
    · exact hboundf z hz' (hvis' ▸ hznv ∘ (hvis' ▸ id))

/-- The frontier-crossing lemma: along any path from the source, either every
node is already visited, or some unvisited node already has a best weight not
above the weight of the path. -/
lemma cross_of_inv {g : Graph} (hg : g.WF) {urg : ℚ} (hurg : 0 ≤ urg)
    {src : String} {s : DijkstraState} (hinv : DijkstraInv g urg src s) :
    ∀ p, List.Chain' g.hasEdge p → p.head? = some src →
      (∀ x ∈ p, x ∈ s.visited) ∨
      ∃ y, y ∉ s.visited ∧ s.best y ≤ g.pathWeight urg p := by
  intro p
  induction p using List.reverseRecOn with
  | nil => intro _ hh; simp at hh
  | append_singleton q z ihq =>
    intro hchain hhead
    by_cases hq : q = []
    · subst hq
      simp only [List.nil_append, List.head?_cons, Option.some.injEq] at hhead
      by_cases hsrc : src ∈ s.visited
      · left
        intro x hx
        simp only [List.nil_append, List.mem_singleton] at hx
        rw [hx, hhead]
        exact hsrc
      · right
        refine ⟨src, hsrc, ?_⟩
        have h0 : g.pathWeight urg ([] ++ [z]) = 0 := rfl
        rw [hinv.1.src_best, h0]
    · obtain ⟨v, hv⟩ := exists_getLast?_of_ne_nil hq
      have hch := List.chain'_append.mp hchain
      have hhq : q.head? = some src := by
        rwa [List.head?_append_of_ne_nil _ hq] at hhead
      have hedge : g.hasEdge v z := by
        have := hch.2.2 v (by rw [hv]; rfl) z rfl
        exact this
      rcases ihq hch.1 hhq with hall | ⟨y, hy, hby⟩
      · have hvvis : v ∈ s.visited := hall v (getLast?_mem_of_eq_some hv)
        by_cases hz : z ∈ s.visited
        · left
          intro x hx
          rcases List.mem_append.mp hx with hx' | hx'
          · exact hall x hx'
          · rw [List.mem_singleton] at hx'
            rw [hx']
            exact hz
        · right
          refine ⟨z, hz, ?_⟩
          calc s.best z ≤ s.best v + g.edgeCost urg v z :=
                hinv.2 v hvvis z hedge hz
            _ ≤ g.pathWeight urg q + g.edgeCost urg v z :=
                add_le_add_right (hinv.1.le_path v hvvis q hch.1 hhq hv) _
            _ = g.pathWeight urg (q ++ [z]) := (pathWeight_concat hv).symm
      · right
        exact ⟨y, hy, hby.trans (pathWeight_le_concat hg hurg q z)⟩

/-- A pop in the non-stale branch finalizes the node at exactly its recorded
best weight, and that weight is below every source-to-node path weight. -/
lemma finalize_optimal {g : Graph} (hg : g.WF) {urg : ℚ} (hurg : 0 ≤ urg)
    {src : String} {s : DijkstraState} (hinv : DijkstraInv g urg src s)
    {e : HeapEntry} {rest : List HeapEntry} (hpop : popMin s.pq = some (e, rest))
    (hv : e.2.2 ∉ s.visited) :
    ∀ p, List.Chain' g.hasEdge p → p.head? = some src → p.getLast? = some e.2.2 →
      e.1 ≤ g.pathWeight urg p := by
  intro p hchain hhead hlast
  rcases cross_of_inv hg hurg hinv p hchain hhead with hall | ⟨y, hy, hby⟩
  · exact absurd (hall e.2.2 (getLast?_mem_of_eq_some hlast)) hv
  · by_cases hyt : s.best y < ⊤
    · obtain ⟨dy, hdy⟩ := hinv.1.frontier y hy hyt
      exact le_trans (popMin_min_weight hpop _ hdy) hby
    · have : s.best y = ⊤ := by rwa [lt_top_iff_ne_top, not_not] at hyt
      rw [this] at hby
      rw [top_le_iff.mp hby]
      exact le_top

/-- The stale branch of the loop can never execute: a popped entry for an
unvisited node is never strictly above the node's best weight. -/
lemma stale_dead {g : Graph} {urg : ℚ} {src : String} {s : DijkstraState}
    (hinv : DijkstraInv g urg src s)
    {e : HeapEntry} {rest : List HeapEntry} (hpop : popMin s.pq = some (e, rest))
    (hv : e.2.2 ∉ s.visited) (hstale : s.best e.2.2 < e.1) : False := by
  have htop : s.best e.2.2 < ⊤ := lt_of_lt_of_le hstale le_top
  obtain ⟨du, hdu⟩ := hinv.1.frontier e.2.2 hv htop
  exact absurd hstale (not_lt.mpr (popMin_min_weight hpop _ hdu))

/-- Skipping an already-visited pop preserves the invariant. -/
lemma inv_skip {g : Graph} {urg : ℚ} {src : String} {s : DijkstraState}
    (hinv : DijkstraInv g urg src s)
    {e : HeapEntry} {rest : List HeapEntry} (hpop : popMin s.pq = some (e, rest))
    (hv : e.2.2 ∈ s.visited) :
    DijkstraInv g urg src { s with pq := rest } := by
  obtain ⟨hres, hrest, -⟩ := popMin_spec hpop
  have hsub : ∀ x ∈ rest, x ∈ s.pq := popMin_rest_subset hpop
  constructor
  · constructor
    · exact hinv.1.src_best
    · exact hinv.1.src_pred
    · rcases hinv.1.src_mem with h | h
      · exact Or.inl h
      · by_cases hse : ((0 : WithTop ℚ), (0 : ℚ), src) = e
        · left
          have : src = e.2.2 := by rw [← hse]
          rwa [this]
        · exact Or.inr (popMin_mem_rest hpop h hse)
    · exact hinv.1.nodupV
    · intro x hx
      exact hinv.1.pq_lb x (hsub x hx)
    · intro x hx
      exact hinv.1.pq_nonneg x (hsub x hx)
    · intro z hz hztop
      obtain ⟨dz, hdz⟩ := hinv.1.frontier z hz hztop
      have hne : (s.best z, dz, z) ≠ e := by
        intro hcontra
        have : z = e.2.2 := by rw [← hcontra]
        exact hz (this ▸ hv)
      exact ⟨dz, popMin_mem_rest hpop hdz hne⟩
    · exact hinv.1.le_path
    · exact hinv.1.pred_vis
    · exact hinv.1.pred_fin
    · exact hinv.1.pred_wt
    · exact hinv.1.pred_rank
  · exact hinv.2

/-- Visiting an unvisited node shifts every old visitation rank by one while
the new node gets rank 0, preserving the strict rank ordering of the
predecessor links. -/
lemma pred_rank_cons {s : DijkstraState} {u : String} (hnv : u ∉ s.visited)
    (hvis : ∀ x v, s.pred x = some v → v ∈ s.visited)
    (hrank : ∀ x v, s.pred x = some v → x ∈ s.visited →
      s.visited.indexOf x < s.visited.indexOf v) :
    ∀ x v, s.pred x = some v → x ∈ u :: s.visited →
      (u :: s.visited).indexOf x < (u :: s.visited).indexOf v := by
  intro x v hp hx
  have hvv : v ∈ s.visited := hvis x v hp
  have hvne : u ≠ v := fun h => hnv (h ▸ hvv)
  rw [List.indexOf_cons_ne _ hvne]
  rcases List.mem_cons.mp hx with hxu | hx'
  · rw [hxu, List.indexOf_cons_self]
    omega
  · have hxne : u ≠ x := fun h => hnv (h ▸ hx')
    rw [List.indexOf_cons_ne _ hxne]
    have := hrank x v hp hx'
    omega

/-- The state right after finalizing a freshly popped, non-stale node
satisfies the loop invariant with every other visited node still relaxed, and
the popped weight equals the node's best weight. -/
lemma inv_after_pop {g : Graph} (hg : g.WF) {urg : ℚ} (hurg : 0 ≤ urg)
    {src : String} {s : DijkstraState} (hinv : DijkstraInv g urg src s)
    {e : HeapEntry} {rest : List HeapEntry} (hpop : popMin s.pq = some (e, rest))
    (hv : e.2.2 ∉ s.visited) (hns : ¬ s.best e.2.2 < e.1) :
    LoopInv g urg src { s with pq := rest, visited := e.2.2 :: s.visited } ∧
    (∀ v' ∈ e.2.2 :: s.visited, v' ≠ e.2.2 →
      RelaxedAt g urg { s with pq := rest, visited := e.2.2 :: s.visited } v') ∧
    s.best e.2.2 = e.1 ∧ (0 : WithTop ℚ) ≤ e.1 := by
  obtain ⟨hein, -, -⟩ := popMin_spec hpop
  have hbeq : s.best e.2.2 = e.1 := le_antisymm (hinv.1.pq_lb e hein) (not_lt.mp hns)
  have hnonneg : (0 : WithTop ℚ) ≤ e.1 := hinv.1.pq_nonneg e hein
  refine ⟨?_, ?_, hbeq, hnonneg⟩
  · constructor
    · exact hinv.1.src_best
    · exact hinv.1.src_pred
    · dsimp only
      by_cases hsu : src = e.2.2
      · exact Or.inl (hsu ▸ List.mem_cons_self _ _)
      · rcases hinv.1.src_mem with h | h
        · exact Or.inl (List.mem_cons_of_mem _ h)
        · have hne : ((0 : WithTop ℚ), (0 : ℚ), src) ≠ e := by
            intro hcontra
            exact hsu (by rw [← hcontra])
          exact Or.inr (popMin_mem_rest hpop h hne)
    · exact List.Nodup.cons hv hinv.1.nodupV
    · intro x hx
      exact hinv.1.pq_lb x (popMin_rest_subset hpop x hx)
    · intro x hx
      exact hinv.1.pq_nonneg x (popMin_rest_subset hpop x hx)
    · dsimp only
      intro z hz hztop
      have hz1 : z ∉ s.visited := fun h => hz (List.mem_cons_of_mem _ h)
      have hz2 : z ≠ e.2.2 := fun h => hz (h ▸ List.mem_cons_self _ _)
      obtain ⟨dz, hdz⟩ := hinv.1.frontier z hz1 hztop
      have hne : (s.best z, dz, z) ≠ e := fun hcontra => hz2 (by rw [← hcontra])
      exact ⟨dz, popMin_mem_rest hpop hdz hne⟩
    · dsimp only
      intro v hvm p hc hh hl
      rcases List.mem_cons.mp hvm with hvu | hvm'
      · rw [hvu, hbeq]
        exact finalize_optimal hg hurg hinv hpop hv p hc hh (hvu ▸ hl)
      · exact hinv.1.le_path v hvm' p hc hh hl
    · intro x v hp
      exact ⟨List.mem_cons_of_mem _ (hinv.1.pred_vis x v hp).1,
        (hinv.1.pred_vis x v hp).2⟩
    · exact hinv.1.pred_fin
    · exact hinv.1.pred_wt
    · dsimp only
      exact pred_rank_cons hv (fun x v hp => (hinv.1.pred_vis x v hp).1)
        hinv.1.pred_rank
  · intro v' hv' hv'u
    have hv'' : v' ∈ s.visited := by
      rcases List.mem_cons.mp hv' with h | h
      · exact absurd h hv'u
      · exact h
    intro z hz hznv
    have hz1 : z ∉ s.visited := fun h => hznv (List.mem_cons_of_mem _ h)
    exact hinv.2 v' hv'' z hz hz1

/-- The state after finalizing a non-stale node and relaxing all its
neighbors satisfies the full invariant again. -/
lemma inv_main {g : Graph} (hg : g.WF) {urg : ℚ} (hurg : 0 ≤ urg)
    {src : String} {s : DijkstraState} (hinv : DijkstraInv g urg src s)
    {e : HeapEntry} {rest : List HeapEntry} (hpop : popMin s.pq = some (e, rest))
    (hv : e.2.2 ∉ s.visited) (hns : ¬ s.best e.2.2 < e.1) :
    DijkstraInv g urg src (relaxNeighbors g urg e.2.2 e.1 e.2.1
      { s with pq := rest, visited := e.2.2 :: s.visited }) := by
  obtain ⟨hloop, hrel, hbeq, hnonneg⟩ := inv_after_pop hg hurg hinv hpop hv hns
  set s1 : DijkstraState := { s with pq := rest, visited := e.2.2 :: s.visited } with hs1
  have huv : e.2.2 ∈ s1.visited := List.mem_cons_self _ _
  have hbu : s1.best e.2.2 = e.1 := hbeq
  obtain ⟨hinvf, hrelf, hbuf, hboundf⟩ :=
    foldRelax_preserves hg hurg (g.neighbors e.2.2) s1 (fun n hn => hn)
      hloop (fun v' hv' hv'u => hrel v' hv' hv'u) huv hbu hnonneg
  have hvisf := foldRelax_visited g urg e.2.2 e.1 e.2.1 (g.neighbors e.2.2) s1
  have hrw : relaxNeighbors g urg e.2.2 e.1 e.2.1 s1 =
      (g.neighbors e.2.2).foldl (fun t v => relaxOne g urg e.2.2 e.1 e.2.1 t v) s1 := rfl
  rw [hrw]
  refine ⟨hinvf, ?_⟩
  intro v hvm
  by_cases hvu : v = e.2.2
  · intro z hz hznv
    have hzn : z ∈ g.neighbors e.2.2 := mem_neighbors_of_hasEdge (hvu ▸ hz)
    have hz1 : z ∉ s1.visited := by rwa [hvisf] at hznv
    have hb := hboundf z hzn hz1
    rw [hvu, hbuf]
    exact hb
  · exact hrelf v hvm hvu

/-- What the final state of the Dijkstra loop satisfies: the destination's
best weight is a lower bound for the weight of every source-to-destination
path, and the predecessor links form a well-founded realization of the best
weights. -/
structure DijkstraPost (g : Graph) (urg : ℚ) (src dest : String)
    (s : DijkstraState) : Prop where
  optimal : ∀ p, List.Chain' g.hasEdge p → p.head? = some src →
    p.getLast? = some dest → s.best dest ≤ g.pathWeight urg p
  src_best : s.best src = 0
  pred_vis : ∀ x v, s.pred x = some v → v ∈ s.visited ∧ x ≠ src
  pred_fin : ∀ x, x ≠ src → s.best x < ⊤ → s.pred x ≠ none
  pred_wt : ∀ x v, s.pred x = some v → g.hasEdge v x ∧
    s.best x = s.best v + g.edgeCost urg v x ∧ s.best x < ⊤
  pred_rank : ∀ x v, s.pred x = some v → x ∈ s.visited →
    s.visited.indexOf x < s.visited.indexOf v
  dest_vis : s.pred dest ≠ none → dest ∈ s.visited

/-- A state with an exhausted queue satisfies the loop postcondition. -/
lemma post_of_empty {g : Graph} (hg : g.WF) {urg : ℚ} (hurg : 0 ≤ urg)
    {src dest : String} {s : DijkstraState} (hinv : DijkstraInv g urg src s)
    (hemp : s.pq = []) : DijkstraPost g urg src dest s := by
  constructor
  · intro p hc hh hl
    rcases cross_of_inv hg hurg hinv p hc hh with hall | ⟨y, hy, hby⟩
    · exact hinv.1.le_path dest (hall dest (getLast?_mem_of_eq_some hl)) p hc hh hl
    · by_cases hyt : s.best y < ⊤
      · obtain ⟨dy, hdy⟩ := hinv.1.frontier y hy hyt
        rw [hemp] at hdy
        simp at hdy
      · have hyy : s.best y = ⊤ := by rwa [lt_top_iff_ne_top, not_not] at hyt
        rw [hyy] at hby
        rw [top_le_iff.mp hby]
        exact le_top
  · exact hinv.1.src_best
  · exact hinv.1.pred_vis
  · exact hinv.1.pred_fin
  · exact hinv.1.pred_wt
  · exact hinv.1.pred_rank
  · intro hpd
    by_cases hdv : dest ∈ s.visited
    · exact hdv
    · cases hpdc : s.pred dest with
      | none => exact absurd hpdc hpd
      | some v =>
        have htop := (hinv.1.pred_wt dest v hpdc).2.2
        obtain ⟨dz, hdz⟩ := hinv.1.frontier dest hdv htop
        rw [hemp] at hdz
        simp at hdz

/-- Popping the destination satisfies the loop postcondition immediately. -/
lemma post_of_dest {g : Graph} (hg : g.WF) {urg : ℚ} (hurg : 0 ≤ urg)
    {src dest : String} {s : DijkstraState} (hinv : DijkstraInv g urg src s)
    {e : HeapEntry} {rest : List HeapEntry} (hpop : popMin s.pq = some (e, rest))
    (hv : e.2.2 ∉ s.visited) (hd : e.2.2 = dest) :
    DijkstraPost g urg src dest { s with pq := rest, visited := e.2.2 :: s.visited } := by
  have hns : ¬ s.best e.2.2 < e.1 := fun hst => stale_dead hinv hpop hv hst
  obtain ⟨hloop, -, hbeq, -⟩ := inv_after_pop hg hurg hinv hpop hv hns
  constructor
  · dsimp only
    intro p hc hh hl
    rw [← hd, hbeq]
    exact finalize_optimal hg hurg hinv hpop hv p hc hh (hd ▸ hl)
  · exact hloop.src_best
  · exact hloop.pred_vis
  · exact hloop.pred_fin
  · exact hloop.pred_wt
  · exact hloop.pred_rank
  · intro _
    exact hd ▸ List.mem_cons_self _ _

/-- One-step unfolding of the loop: empty queue. -/
lemma dijkstraLoop_step_none {g : Graph} {dest : String} {urg : ℚ} {fuel : ℕ}
    {s : DijkstraState} (h : popMin s.pq = none) :
    dijkstraLoop g dest urg (fuel + 1) s = s := by
  rw [dijkstraLoop, h]

/-- One-step unfolding of the loop: visited node popped, skipped. -/
lemma dijkstraLoop_step_skip {g : Graph} {dest : String} {urg : ℚ} {fuel : ℕ}
    {s : DijkstraState} {e : HeapEntry} {rest : List HeapEntry}
    (h : popMin s.pq = some (e, rest)) (hv : e.2.2 ∈ s.visited) :
    dijkstraLoop g dest urg (fuel + 1) s =
      dijkstraLoop g dest urg fuel { s with pq := rest } := by
  rw [dijkstraLoop, h]
  dsimp only
  rw [if_pos hv]

/-- One-step unfolding of the loop: the destination is finalized, loop ends. -/
lemma dijkstraLoop_step_dest {g : Graph} {dest : String} {urg : ℚ} {fuel : ℕ}
    {s : DijkstraState} {e : HeapEntry} {rest : List HeapEntry}
    (h : popMin s.pq = some (e, rest)) (hv : e.2.2 ∉ s.visited) (hd : e.2.2 = dest) :
    dijkstraLoop g dest urg (fuel + 1) s =
      { s with pq := rest, visited := e.2.2 :: s.visited } := by
  rw [dijkstraLoop, h]
  dsimp only
  rw [if_neg hv, if_pos hd]

/-- One-step unfolding of the loop: a fresh non-destination node is finalized
and its neighbors relaxed (the stale branch is provably dead under the
invariant, see `stale_dead`). -/
lemma dijkstraLoop_step_main {g : Graph} {dest : String} {urg : ℚ} {fuel : ℕ}
    {s : DijkstraState} {e : HeapEntry} {rest : List HeapEntry}
    (h : popMin s.pq = some (e, rest)) (hv : e.2.2 ∉ s.visited) (hd : e.2.2 ≠ dest)
    (hns : ¬ s.best e.2.2 < e.1) :
    dijkstraLoop g dest urg (fuel + 1) s =
      dijkstraLoop g dest urg fuel (relaxNeighbors g urg e.2.2 e.1 e.2.1
        { s with pq := rest, visited := e.2.2 :: s.visited }) := by
  rw [dijkstraLoop, h]
  dsimp only
  rw [if_neg hv, if_neg hd, if_neg hns]

/-- The Dijkstra main loop, run with enough fuel from a state satisfying the
invariant, reaches a state satisfying the postcondition. -/
lemma dijkstraLoop_spec {g : Graph} (hg : g.WF) {urg : ℚ} (hurg : 0 ≤ urg)
    {src dest : String} :
    ∀ (fuel : ℕ) (s : DijkstraState), DijkstraInv g urg src s →
      dmeasure g s ≤ fuel →
      DijkstraPost g urg src dest (dijkstraLoop g dest urg fuel s) := by
  intro fuel
  induction fuel with
  | zero =>
    intro s hinv hm
    have hemp : s.pq = [] := by
      have : s.pq.length = 0 := by
        unfold dmeasure at hm
        omega
      exact List.length_eq_zero.mp this
    exact post_of_empty hg hurg hinv hemp
  | succ fuel ih =>
    intro s hinv hm
    cases hpop : popMin s.pq with
    | none =>
      rw [dijkstraLoop_step_none hpop]
      exact post_of_empty hg hurg hinv (popMin_eq_none.mp hpop)
    | some pr =>
      obtain ⟨e, rest⟩ := pr
      by_cases hv : e.2.2 ∈ s.visited
      · rw [dijkstraLoop_step_skip hpop hv]
        refine ih _ (inv_skip hinv hpop hv) ?_
        have := dmeasure_skip_lt g hpop
        omega
      · by_cases hd : e.2.2 = dest
        · rw [dijkstraLoop_step_dest hpop hv hd]
          exact post_of_dest hg hurg hinv hpop hv hd
        · have hns : ¬ s.best e.2.2 < e.1 := fun hst => stale_dead hinv hpop hv hst
          rw [dijkstraLoop_step_main hpop hv hd hns]
          refine ih _ (inv_main hg hurg hinv hpop hv hns) ?_
          have := dmeasure_relax_lt g urg hpop hv
          omega

/-- The initial state satisfies the invariant. -/
lemma inv_init (g : Graph) (urg : ℚ) (src : String) :
    DijkstraInv g urg src (dijkstraInit src) := by
  constructor
  · constructor
    · simp [dijkstraInit]
    · rfl
    · right
      simp [dijkstraInit]
    · simp [dijkstraInit]
    · intro e he
      simp only [dijkstraInit, List.mem_singleton] at he
      rw [he]
      simp [dijkstraInit]
    · intro e he
      simp only [dijkstraInit, List.mem_singleton] at he
      rw [he]
    · intro z _ hztop
      by_cases hzx : z = src
      · refine ⟨0, ?_⟩
        simp [dijkstraInit, hzx]
      · exfalso
        simp only [dijkstraInit, if_neg hzx] at hztop
        exact absurd hztop (lt_irrefl ⊤)
    · intro v hv
      simp [dijkstraInit] at hv
    · intro x v hp
      simp [dijkstraInit] at hp
    · intro x hx hxt
      exfalso
      simp only [dijkstraInit, if_neg hx] at hxt
      exact absurd hxt (lt_irrefl ⊤)
    · intro x v hp
      simp [dijkstraInit] at hp
    · intro x v hp
      simp [dijkstraInit] at hp
  · intro v hv
    simp [dijkstraInit] at hv

/-- The fuel handed over by priority_dijkstra covers the initial loop
variant. -/
lemma dmeasure_init_le (g : Graph) (src : String) :
    dmeasure g (dijkstraInit src) ≤ g.dijkstraFuel := by
  unfold dmeasure Graph.dijkstraFuel unvisitedCount dijkstraInit
  dsimp only
  have h1 : (g.allIds.filter (fun x => decide (x ∉ ([] : List String)))).length ≤
      g.allIds.length := List.length_filter_le _ _
  have h2 := Nat.mul_le_mul_left (g.edges.length + 2) h1
  simp only [List.length_singleton]
  omega

/-- Specification of the reconstruction walk: starting from a visited node
with finite best weight, the collected-and-reversed predecessor chain is a
path from the source to that node whose cumulative priority weight is exactly
the node's best weight. -/
lemma buildPath_spec {g : Graph} {urg : ℚ} {src dest : String} {s : DijkstraState}
    (hpost : DijkstraPost g urg src dest s) :
    ∀ (fuel : ℕ) (cur : String), cur ∈ s.visited → s.best cur < ⊤ →
      s.visited.length - s.visited.indexOf cur ≤ fuel →
      (buildPath s.pred fuel cur).reverse.head? = some src ∧
      (buildPath s.pred fuel cur).reverse.getLast? = some cur ∧
      List.Chain' g.hasEdge (buildPath s.pred fuel cur).reverse ∧
      g.pathWeight urg (buildPath s.pred fuel cur).reverse = s.best cur := by
  intro fuel
  induction fuel with
  | zero =>
    intro cur hcv _ hfl
    have := List.indexOf_lt_length.mpr hcv
    omega
  | succ fuel ih =>
    intro cur hcv hct hfl
    rw [buildPath]
    cases hp : s.pred cur with
    | none =>
      have hcs : cur = src := by
        by_contra hne
        exact hpost.pred_fin cur hne hct hp
      dsimp only
      refine ⟨?_, ?_, ?_, ?_⟩
      · simp [hcs]
      · simp
      · simp
      · have h0 : g.pathWeight urg [cur].reverse = 0 := rfl
        rw [h0, hcs, hpost.src_best]
    | some v =>
      obtain ⟨hvvis, -⟩ := hpost.pred_vis cur v hp
      obtain ⟨hedge, hwt, -⟩ := hpost.pred_wt cur v hp
      have hvt : s.best v < ⊤ := by
        rw [hwt] at hct
        exact (WithTop.add_lt_top.mp hct).1
      have hrank := hpost.pred_rank cur v hp hcv
      have hvl := List.indexOf_lt_length.mpr hvvis
      have hfl' : s.visited.length - s.visited.indexOf v ≤ fuel := by omega
      obtain ⟨ih1, ih2, ih3, ih4⟩ := ih v hvvis hvt hfl'
      dsimp only
      rw [List.reverse_cons]
      have hPne : (buildPath s.pred fuel v).reverse ≠ [] := by
        intro hnil
        rw [hnil] at ih1
        simp at ih1
      refine ⟨?_, ?_, ?_, ?_⟩
      · rw [List.head?_append_of_ne_nil _ hPne]
        exact ih1
      · exact List.getLast?_concat _
      · rw [List.chain'_append]
        refine ⟨ih3, List.chain'_singleton _, ?_⟩
        intro x hx y hy
        rw [ih2] at hx
        simp only [Option.mem_def, Option.some.injEq] at hx
        simp only [List.head?_cons, Option.mem_def, Option.some.injEq] at hy
        rw [← hx, ← hy]
        exact hedge
      · rw [pathWeight_concat ih2, ih4, hwt]

/-- Full functional correctness of priority_dijkstra on well-formed graphs:
whenever some source-to-destination path of finite cumulative priority weight
exists, the function returns a path from source to destination whose
cumulative priority weight equals the reported score and is minimal among all
source-to-destination paths. -/
theorem priority_dijkstra_correct {g : Graph} (hg : g.WF) {urg : ℚ} (hurg : 0 ≤ urg)
    {src dest : String} (hs : src ∈ g.nodeIds) (ht : dest ∈ g.nodeIds)
    {q : List String} (hq1 : List.Chain' g.hasEdge q) (hq2 : q.head? = some src)
    (hq3 : q.getLast? = some dest) (hfin : g.pathWeight urg q < ⊤) :
    ∃ p, (priority_dijkstra g src dest urg).1 = some p ∧
      p.head? = some src ∧ p.getLast? = some dest ∧ List.Chain' g.hasEdge p ∧
      g.pathWeight urg p = (priority_dijkstra g src dest urg).2.2 ∧
      ∀ r, List.Chain' g.hasEdge r → r.head? = some src → r.getLast? = some dest →
        g.pathWeight urg p ≤ g.pathWeight urg r := by
  have hcond1 : ¬ (src ∉ g.nodeIds ∨ dest ∉ g.nodeIds) := by
    push_neg
    exact ⟨hs, ht⟩
  by_cases hsd : src = dest
  · refine ⟨[src], ?_, rfl, ?_, ?_, ?_, ?_⟩
    · unfold priority_dijkstra
      rw [if_neg hcond1, if_pos hsd]
    · simp [hsd]
    · simp
    · unfold priority_dijkstra
      rw [if_neg hcond1, if_pos hsd]
      rfl
    · intro r h1 h2 h3
      have h0 : g.pathWeight urg [src] = 0 := rfl
      rw [h0]
      exact pathWeight_nonneg hg hurg r
  · unfold priority_dijkstra
    rw [if_neg hcond1, if_neg hsd]
    have hpost : DijkstraPost g urg src dest
        (dijkstraLoop g dest urg g.dijkstraFuel (dijkstraInit src)) :=
      dijkstraLoop_spec hg hurg g.dijkstraFuel (dijkstraInit src)
        (inv_init g urg src) (dmeasure_init_le g src)
    set sf := dijkstraLoop g dest urg g.dijkstraFuel (dijkstraInit src) with hsf
    have hbd : sf.best dest ≤ g.pathWeight urg q := hpost.optimal q hq1 hq2 hq3
    have hbtop : sf.best dest < ⊤ := lt_of_le_of_lt hbd hfin
    have hpred : sf.pred dest ≠ none := hpost.pred_fin dest (Ne.symm hsd) hbtop
    have hcond2 : ¬ (sf.pred dest = none ∧ dest ≠ src) := fun h => hpred h.1
    dsimp only
    rw [if_neg hcond2]
    have hdv : dest ∈ sf.visited := hpost.dest_vis hpred
    obtain ⟨w1, w2, w3, w4⟩ := buildPath_spec hpost sf.visited.length dest hdv hbtop
      (Nat.sub_le _ _)
    refine ⟨(buildPath sf.pred sf.visited.length dest).reverse, rfl, w1, w2, w3, ?_, ?_⟩
    · rw [w4]
    · intro r h1 h2 h3
      rw [w4]
      exact hpost.optimal r h1 h2 h3

end Invariant

section EngineLemmas

/-- The reconstruction walk never produces an empty list. -/
lemma buildPath_ne_nil (pred : String → Option String) (fuel : ℕ) (cur : String) :
    buildPath pred fuel cur ≠ [] := by
  cases fuel <;> simp [buildPath]

/-- The solver never returns an empty path: its truthiness test coincides with
the path being present. -/
lemma priority_dijkstra_path_ne_nil {g : Graph} {s d : String} {u : ℚ}
    {p : List String} (h : (priority_dijkstra g s d u).1 = some p) : p ≠ [] := by
  unfold priority_dijkstra at h
  by_cases c1 : s ∉ g.nodeIds ∨ d ∉ g.nodeIds
  · rw [if_pos c1] at h
    simp at h
  · rw [if_neg c1] at h
    by_cases c2 : s = d
    · rw [if_pos c2] at h
      simp only [Option.some.injEq] at h
      rw [← h]
      simp
    · rw [if_neg c2] at h
      dsimp only at h
      by_cases c3 : (dijkstraLoop g d u g.dijkstraFuel (dijkstraInit s)).pred d = none ∧ d ≠ s
      · rw [if_pos c3] at h
        simp at h
      · rw [if_neg c3] at h
        simp only [Option.some.injEq] at h
        rw [← h]
        simp [buildPath_ne_nil]

/-- Truthiness of a solver result is equivalent to a path being present. -/
lemma pyTruthy_dijkstra {g : Graph} {s d : String} {u : ℚ} :
    pyTruthy (priority_dijkstra g s d u).1 = true ↔
      ∃ p, (priority_dijkstra g s d u).1 = some p := by
  cases hp : (priority_dijkstra g s d u).1 with
  | none => simp [pyTruthy]
  | some p =>
    have hne := priority_dijkstra_path_ne_nil hp
    cases p with
    | nil => exact absurd rfl hne
    | cons a t => simp [pyTruthy]

/-- A node of the graph has a prevalence attribute. -/
lemma prevalenceOf_isSome {g : Graph} {n : String} (h : n ∈ g.nodeIds) :
    ∃ p, g.prevalenceOf n = some p := by
  unfold Graph.prevalenceOf
  unfold Graph.nodeIds at h
  rw [List.mem_map] at h
  obtain ⟨r, hr, hrn⟩ := h
  have hsome : (g.nodes.find? (fun r => r.1 == n)).isSome := by
    rw [List.find?_isSome]
    exact ⟨r, hr, by simp [hrn]⟩
  obtain ⟨e, he⟩ := Option.isSome_iff_exists.mp hsome
  exact ⟨e.2, by rw [he]; rfl⟩

/-- Full specification of get_route_details on a path of existing nodes: the
call succeeds, produces one record per consecutive pair, and each record
carries the two pair members and the segment distance. -/
lemma get_route_details_spec (g : Graph) :
    ∀ path : List String, (∀ x ∈ path, x ∈ g.nodeIds) →
      ∃ segs, get_route_details g path = some segs ∧
        segs.length = path.length - 1 ∧
        ∀ i st, segs.get? i = some st →
          path.get? i = some st.fromCity ∧ path.get? (i + 1) = some st.toCity ∧
          st.distance = routeSegDistance g st.fromCity st.toCity := by
  intro path
  induction path with
  | nil => intro _; exact ⟨[], rfl, by simp, by simp⟩
  | cons a t ih =>
    intro hmem
    cases t with
    | nil => exact ⟨[], rfl, by simp, by simp⟩
    | cons b rest =>
      obtain ⟨segs, hs1, hs2, hs3⟩ := ih (fun x hx => hmem x (List.mem_cons_of_mem a hx))
      obtain ⟨pa, hpa⟩ := prevalenceOf_isSome (hmem a (List.mem_cons_self _ _))
      obtain ⟨pb, hpb⟩ := prevalenceOf_isSome
        (hmem b (List.mem_cons_of_mem a (List.mem_cons_self _ _)))
      refine ⟨RouteSegment.mk a b (routeSegDistance g a b) pa pb :: segs, ?_, ?_, ?_⟩
      · rw [get_route_details, hpa, hpb, hs1]
        rfl
      · simp only [List.length_cons]
        simp only [List.length_cons] at hs2
        omega
      · intro i st hst
        cases i with
        | zero =>
          simp only [List.get?_cons_zero, Option.some.injEq] at hst
          rw [← hst]
          exact ⟨rfl, rfl, rfl⟩
        | succ i =>
          simp only [List.get?_cons_succ] at hst ⊢
          exact hs3 i st hst

/-- Every record produced by get_route_details (on any path) carries the
segment distance computed by `routeSegDistance` for its own endpoints. -/
lemma get_route_details_distance (g : Graph) :
    ∀ (path : List String) (segs : List RouteSegment),
      get_route_details g path = some segs →
      ∀ st ∈ segs, st.distance = routeSegDistance g st.fromCity st.toCity := by
  intro path
  induction path with
  | nil =>
    intro segs h st hst
    have h0 : get_route_details g [] = some [] := rfl
    rw [h0, Option.some.injEq] at h
    rw [← h] at hst
    simp at hst
  | cons a t ih =>
    cases t with
    | nil =>
      intro segs h st hst
      have h0 : get_route_details g [a] = some [] := rfl
      rw [h0, Option.some.injEq] at h
      rw [← h] at hst
      simp at hst
    | cons b rest =>
      intro segs h st hst
      rw [get_route_details] at h
      cases hpa : g.prevalenceOf a with
      | none => rw [hpa] at h; simp at h
      | some pa =>
        rw [hpa] at h
        simp only [Option.bind_eq_bind, Option.some_bind] at h
        cases hpb : g.prevalenceOf b with
        | none => rw [hpb] at h; simp at h
        | some pb =>
          rw [hpb] at h
          simp only [Option.bind_eq_bind, Option.some_bind] at h
          cases htl : get_route_details g (b :: rest) with
          | none => rw [htl] at h; simp at h
          | some tail =>
            rw [htl] at h
            simp only [Option.bind_eq_bind, Option.some_bind, Option.some.injEq] at h
            rw [← h] at hst
            rcases List.mem_cons.mp hst with hst0 | hst'
            · rw [hst0]
            · exact ih tail htl st hst'

/-- A successful candidate of the nearest-pick scan is an unvisited node of
the graph. -/
lemma pickNearest_mem {g : Graph} {urg : ℚ} {current : String} {visited : List String} :
    ∀ nb, (pickNearest g urg current visited).1 = some nb →
      nb ∈ g.nodeIds ∧ nb ∉ visited := by
  unfold pickNearest
  suffices h : ∀ (l : List String) (acc : Option String × WithTop ℚ),
      (∀ x ∈ l, x ∈ g.nodeIds) →
      (∀ nb, acc.1 = some nb → nb ∈ g.nodeIds ∧ nb ∉ visited) →
      ∀ nb, ((l.foldl (pickNearestStep g urg current visited) acc).1 = some nb →
        nb ∈ g.nodeIds ∧ nb ∉ visited) by
    exact h g.nodeIds (none, ⊤) (fun x hx => hx) (by simp)
  intro l
  induction l with
  | nil => intro acc _ hacc; exact hacc
  | cons x xs ihl =>
    intro acc hl hacc
    rw [List.foldl_cons]
    apply ihl _ (fun y hy => hl y (List.mem_cons_of_mem _ hy))
    intro nb hnb
    unfold pickNearestStep at hnb
    by_cases hxv : x ∈ visited
    · rw [if_pos hxv] at hnb
      exact hacc nb hnb
    · rw [if_neg hxv] at hnb
      dsimp only at hnb
      by_cases hcond : pyTruthy (priority_dijkstra g current x urg).1 = true ∧
          (priority_dijkstra g current x urg).2.2 < acc.2
      · rw [if_pos hcond] at hnb
        simp only [Option.some.injEq] at hnb
        rw [← hnb]
        exact ⟨hl x (List.mem_cons_self _ _), hxv⟩
      · rw [if_neg hcond] at hnb
        exact hacc nb hnb

/-- A successful candidate of the priority-pick scan is an unvisited node of
the graph. -/
lemma pickPriority_mem {g : Graph} {urg : ℚ} {current : String} {visited : List String} :
    ∀ nb, (pickPriorityCandidate g urg current visited).1 = some nb →
      nb ∈ g.nodeIds ∧ nb ∉ visited := by
  unfold pickPriorityCandidate
  suffices h : ∀ (l : List String) (acc : Option String × Option ℚ),
      (∀ x ∈ l, x ∈ g.nodeIds) →
      (∀ nb, acc.1 = some nb → nb ∈ g.nodeIds ∧ nb ∉ visited) →
      ∀ nb, ((l.foldl (pickPriorityStep g urg current visited) acc).1 = some nb →
        nb ∈ g.nodeIds ∧ nb ∉ visited) by
    exact h g.nodeIds (none, none) (fun x hx => hx) (by simp)
  intro l
  induction l with
  | nil => intro acc _ hacc; exact hacc
  | cons x xs ihl =>
    intro acc hl hacc
    rw [List.foldl_cons]
    apply ihl _ (fun y hy => hl y (List.mem_cons_of_mem _ hy))
    intro nb hnb
    unfold pickPriorityStep at hnb
    by_cases hxv : x ∈ visited
    · rw [if_pos hxv] at hnb
      exact hacc nb hnb
    · rw [if_neg hxv] at hnb
      dsimp only at hnb
      by_cases hcond : pyTruthy (priority_dijkstra g current x 1).1 = true ∧
          0 < (priority_dijkstra g current x 1).2.1
      · rw [if_pos hcond] at hnb
        by_cases hbeat : beatsBest
            (g.prevD x (1/2) * urg / (priority_dijkstra g current x 1).2.1.untop' 0)
            acc.2 = true
        · rw [if_pos hbeat] at hnb
          simp only [Option.some.injEq] at hnb
          rw [← hnb]
          exact ⟨hl x (List.mem_cons_self _ _), hxv⟩
        · rw [if_neg hbeat] at hnb
          exact hacc nb hnb
      · rw [if_neg hcond] at hnb
        exact hacc nb hnb

/-- Invariant of the nearest-neighbor tour loop: the produced path keeps its
head, stays duplicate-free, stays inside the graph's nodes, and stays inside
the visited set. -/
lemma tourLoopNearest_spec (g : Graph) (urg : ℚ) :
    ∀ (fuel : ℕ) (visited path : List String) (current : String),
      path ≠ [] → path.Nodup → (∀ x ∈ path, x ∈ g.nodeIds) →
      (∀ x ∈ path, x ∈ visited) →
      tourLoopNearest g urg fuel visited path current ≠ [] ∧
      (tourLoopNearest g urg fuel visited path current).head? = path.head? ∧
      (tourLoopNearest g urg fuel visited path current).Nodup ∧
      (∀ x ∈ tourLoopNearest g urg fuel visited path current, x ∈ g.nodeIds) := by
  intro fuel
  induction fuel with
  | zero =>
    intro visited path current hne hnd hsub _
    exact ⟨hne, rfl, hnd, hsub⟩
  | succ fuel ih =>
    intro visited path current hne hnd hsub hv
    rw [tourLoopNearest]
    by_cases hguard : visited.length < g.nodeIds.length
    · rw [if_pos hguard]
      cases hpick : (pickNearest g urg current visited).1 with
      | none => exact ⟨hne, rfl, hnd, hsub⟩
      | some nb =>
        obtain ⟨hnb1, hnb2⟩ := pickNearest_mem nb hpick
        have hnp : nb ∉ path := fun hmem => hnb2 (hv nb hmem)
        have hne' : path ++ [nb] ≠ [] := by simp
        have hnd' : (path ++ [nb]).Nodup := by
          rw [List.nodup_append]
          refine ⟨hnd, List.nodup_singleton _, ?_⟩
          intro x hx hx1
          rw [List.mem_singleton] at hx1
          exact hnp (hx1 ▸ hx)
        have hsub' : ∀ x ∈ path ++ [nb], x ∈ g.nodeIds := by
          intro x hx
          rcases List.mem_append.mp hx with hx' | hx'
          · exact hsub x hx'
          · rw [List.mem_singleton] at hx'
            exact hx' ▸ hnb1
        have hv' : ∀ x ∈ path ++ [nb], x ∈ nb :: visited := by
          intro x hx
          rcases List.mem_append.mp hx with hx' | hx'
          · exact List.mem_cons_of_mem _ (hv x hx')
          · rw [List.mem_singleton] at hx'
            exact hx' ▸ List.mem_cons_self _ _
        obtain ⟨r1, r2, r3, r4⟩ := ih (nb :: visited) (path ++ [nb]) nb hne' hnd' hsub' hv'
        refine ⟨r1, ?_, r3, r4⟩
        rw [r2, List.head?_append_of_ne_nil _ hne]
    · rw [if_neg hguard]
      exact ⟨hne, rfl, hnd, hsub⟩

/-- Invariant of the priority tour loop: same structural facts as for the
nearest-neighbor loop. -/
lemma tourLoopPriority_spec (g : Graph) (urg : ℚ) :
    ∀ (fuel : ℕ) (visited path : List String) (current : String),
      path ≠ [] → path.Nodup → (∀ x ∈ path, x ∈ g.nodeIds) →
      (∀ x ∈ path, x ∈ visited) →
      tourLoopPriority g urg fuel visited path current ≠ [] ∧
      (tourLoopPriority g urg fuel visited path current).head? = path.head? ∧
      (tourLoopPriority g urg fuel visited path current).Nodup ∧
      (∀ x ∈ tourLoopPriority g urg fuel visited path current, x ∈ g.nodeIds) := by
  intro fuel
  induction fuel with
  | zero =>
    intro visited path current hne hnd hsub _
    exact ⟨hne, rfl, hnd, hsub⟩
  | succ fuel ih =>
    intro visited path current hne hnd hsub hv
    rw [tourLoopPriority]
    by_cases hguard : visited.length < g.nodeIds.length
    · rw [if_pos hguard]
      cases hpick : (pickPriorityCandidate g urg current visited).1 with
      | none => exact ⟨hne, rfl, hnd, hsub⟩
      | some nb =>
        obtain ⟨hnb1, hnb2⟩ := pickPriority_mem nb hpick
        have hnp : nb ∉ path := fun hmem => hnb2 (hv nb hmem)
        have hne' : path ++ [nb] ≠ [] := by simp
        have hnd' : (path ++ [nb]).Nodup := by
          rw [List.nodup_append]
          refine ⟨hnd, List.nodup_singleton _, ?_⟩
          intro x hx hx1
          rw [List.mem_singleton] at hx1
          exact hnp (hx1 ▸ hx)
        have hsub' : ∀ x ∈ path ++ [nb], x ∈ g.nodeIds := by
          intro x hx
          rcases List.mem_append.mp hx with hx' | hx'
          · exact hsub x hx'
          · rw [List.mem_singleton] at hx'
            exact hx' ▸ hnb1
        have hv' : ∀ x ∈ path ++ [nb], x ∈ nb :: visited := by
          intro x hx
          rcases List.mem_append.mp hx with hx' | hx'
          · exact List.mem_cons_of_mem _ (hv x hx')
          · rw [List.mem_singleton] at hx'
            exact hx' ▸ List.mem_cons_self _ _
        obtain ⟨r1, r2, r3, r4⟩ := ih (nb :: visited) (path ++ [nb]) nb hne' hnd' hsub' hv'
        refine ⟨r1, ?_, r3, r4⟩
        rw [r2, List.head?_append_of_ne_nil _ hne]
    · rw [if_neg hguard]
      exact ⟨hne, rfl, hnd, hsub⟩

/-- calculate_tour_metrics computes exactly the direct-edge distance sum and
the direct-edge priority-weight sum over the consecutive pairs that have a
direct edge. -/
lemma calculate_tour_metrics_eq (g : Graph) (urg : ℚ) :
    ∀ path : List String,
      calculate_tour_metrics g urg path =
        (((consecPairs path).filterMap (fun pr => g.get_edge_data pr.1 pr.2)).sum,
         ((consecPairs path).filterMap (fun pr => (g.get_edge_data pr.1 pr.2).map
            (fun d => calculate_priority_weight d
              ((g.prevD pr.1 (1/2) + g.prevD pr.2 (1/2)) / 2) urg))).sum) := by
  intro path
  induction path with
  | nil => simp [calculate_tour_metrics, consecPairs]
  | cons a t ih =>
    cases t with
    | nil => simp [calculate_tour_metrics, consecPairs]
    | cons b rest =>
      have hcp : consecPairs (a :: b :: rest) = (a, b) :: consecPairs (b :: rest) := rfl
      rw [calculate_tour_metrics, ih, hcp]
      cases hab : g.get_edge_data a b with
      | none => simp [List.filterMap_cons, hab]
      | some d => simp [List.filterMap_cons, hab]

end EngineLemmas

section WeightMonotone

/-- The per-edge priority weight is non-increasing in urgency. -/
lemma calculate_priority_weight_mono {d p u1 u2 : ℚ} (hd : 0 ≤ d) (hp0 : 0 ≤ p)
    (hu1 : 0 < u1) (h12 : u1 ≤ u2) :
    calculate_priority_weight d p u2 ≤ calculate_priority_weight d p u1 := by
  unfold calculate_priority_weight
  by_cases hp : p = 0
  · rw [if_pos (Or.inl hp), if_pos (Or.inl hp)]
  · have hu2 : 0 < u2 := lt_of_lt_of_le hu1 h12
    rw [if_neg (by push_neg; exact ⟨hp, ne_of_gt hu2⟩),
      if_neg (by push_neg; exact ⟨hp, ne_of_gt hu1⟩), WithTop.coe_le_coe]
    have hppos : 0 < p := lt_of_le_of_ne hp0 (Ne.symm hp)
    have h1 : 0 < p * u1 := mul_pos hppos hu1
    have h2 : p * u1 ≤ p * u2 := mul_le_mul_of_nonneg_left h12 (le_of_lt hppos)
    exact div_le_div_of_nonneg_left hd h1 h2

/-- The per-edge relaxation cost is non-increasing in urgency on well-formed
graphs. -/
lemma edgeCost_mono {g : Graph} (hg : g.WF) {u1 u2 : ℚ} (hu1 : 0 < u1)
    (h12 : u1 ≤ u2) (a b : String) :
    g.edgeCost u2 a b ≤ g.edgeCost u1 a b := by
  unfold Graph.edgeCost
  have havg : 0 ≤ (g.prevD a (1/2) + g.prevD b (1/2)) / 2 := by
    have := prevD_nonneg hg a
    have := prevD_nonneg hg b
    positivity
  exact calculate_priority_weight_mono (road_nonneg hg a b) havg hu1 h12

/-- Cumulative path weight is non-increasing in urgency on well-formed
graphs. -/
lemma pathWeight_mono {g : Graph} (hg : g.WF) {u1 u2 : ℚ} (hu1 : 0 < u1)
    (h12 : u1 ≤ u2) : ∀ p : List String, g.pathWeight u2 p ≤ g.pathWeight u1 p := by
  intro p
  induction p with
  | nil => simp [Graph.pathWeight]
  | cons a t ih =>
    cases t with
    | nil => simp [Graph.pathWeight]
    | cons b rest =>
      have e2 : ∀ u : ℚ, g.pathWeight u (a :: b :: rest) =
          g.edgeCost u a b + g.pathWeight u (b :: rest) := fun u => rfl
      rw [e2 u1, e2 u2]
      exact add_le_add (edgeCost_mono hg hu1 h12 a b) ih

end WeightMonotone

/-- C3: calculate_priority_weight returns positive infinity when prevalence
or urgency is 0, and otherwise exactly distance / (prevalence × urgency); in
particular weight(100, 0.5, 1) = 200 and weight(100, 0.5, 5) = 40.  It is a
pure function of its three arguments (a Lean function by construction). -/
theorem claim_C3 :
    (∀ distance prevalence urgency : ℚ, prevalence = 0 ∨ urgency = 0 →
      calculate_priority_weight distance prevalence urgency = ⊤) ∧
    (∀ distance prevalence urgency : ℚ, prevalence ≠ 0 → urgency ≠ 0 →
      calculate_priority_weight distance prevalence urgency =
        ((distance / (prevalence * urgency) : ℚ) : WithTop ℚ)) ∧
    calculate_priority_weight 100 (1/2) 1 = ((200 : ℚ) : WithTop ℚ) ∧
    calculate_priority_weight 100 (1/2) 5 = ((40 : ℚ) : WithTop ℚ) := by
  refine ⟨?_, ?_, ?_, ?_⟩
  · intro d p u h
    rw [calculate_priority_weight, if_pos h]
  · intro d p u hp hu
    rw [calculate_priority_weight, if_neg (by push_neg; exact ⟨hp, hu⟩)]
  · norm_num [calculate_priority_weight]
  · norm_num [calculate_priority_weight]

/-- Witness for C3 at concrete inputs. -/
theorem claim_C3_witness :
    calculate_priority_weight 7 0 3 = ⊤ ∧
    calculate_priority_weight 9 (1/2) 2 = ((9 / ((1/2) * 2) : ℚ) : WithTop ℚ) := by
  constructor
  · exact claim_C3.1 7 0 3 (Or.inl rfl)
  · exact claim_C3.2.1 9 (1/2) 2 (by norm_num) (by norm_num)

/-- C5: the per-edge priority weight is non-increasing in urgency (for
nonnegative distance, prevalence in [0,1] and positive urgencies), and
consequently the cumulative priority weight of any fixed path on a
well-formed graph never increases when the urgency increases. -/
theorem claim_C5 :
    (∀ distance prevalence u1 u2 : ℚ, 0 ≤ distance → 0 ≤ prevalence →
      prevalence ≤ 1 → 0 < u1 → u1 ≤ u2 →
      calculate_priority_weight distance prevalence u2 ≤
        calculate_priority_weight distance prevalence u1) ∧
    (∀ g : Graph, g.WF → ∀ u1 u2 : ℚ, 0 < u1 → u1 ≤ u2 → ∀ p : List String,
      g.pathWeight u2 p ≤ g.pathWeight u1 p) := by
  constructor
  · intro d p u1 u2 hd hp0 _ hu1 h12
    exact calculate_priority_weight_mono hd hp0 hu1 h12
  · intro g hg u1 u2 hu1 h12 p
    exact pathWeight_mono hg hu1 h12 p

/-- Witness for C5: urgency 5 versus urgency 1 on the running example. -/
theorem claim_C5_witness :
    calculate_priority_weight 100 (1/2) 5 ≤ calculate_priority_weight 100 (1/2) 1 ∧
    exampleGraph.pathWeight 5 [ "A", "B", "C"] ≤
      exampleGraph.pathWeight 1 [ "A", "B", "C"] := by
  constructor
  · exact claim_C5.1 100 (1/2) 1 5 (by norm_num) (by norm_num) (by norm_num)
      (by norm_num) (by norm_num)
  · exact claim_C5.2 exampleGraph (by decide) 1 5 (by norm_num) (by norm_num)
      [ "A", "B", "C"]

/-- C6: querying the solver with source equal to destination, for any node of
the graph and any urgency, returns exactly the one-node path with distance 0
and priority score 0. -/
theorem claim_C6 (g : Graph) (x : String) (hx : x ∈ g.nodeIds) (urgency : ℚ) :
    priority_dijkstra g x x urgency = (some [x], 0, 0) := by
  unfold priority_dijkstra
  rw [if_neg (by push_neg; exact ⟨hx, hx⟩), if_pos rfl]

/-- Witness for C6 on the one-node network. -/
theorem claim_C6_witness :
    priority_dijkstra oneNodeGraph "A" "A" 1 = (some [ "A"], 0, 0) :=
  claim_C6 oneNodeGraph "A" (by decide) 1

/-- C7: querying the solver with a source or destination that is not a node
of the graph returns the no-path sentinel (absent path and infinite distance
and score) instead of raising an error. -/
theorem claim_C7 (g : Graph) (source destination : String) (urgency : ℚ)
    (h : source ∉ g.nodeIds ∨ destination ∉ g.nodeIds) :
    priority_dijkstra g source destination urgency = (none, ⊤, ⊤) := by
  unfold priority_dijkstra
  rw [if_pos h]

/-- Witness for C7 on the one-node network. -/
theorem claim_C7_witness :
    priority_dijkstra oneNodeGraph "A" "X" 1 = (none, ⊤, ⊤) :=
  claim_C7 oneNodeGraph "A" "X" 1 (Or.inr (by decide))

/-- C10: calculate_tour_metrics returns the pair of the direct-edge distance
sum and the direct-edge priority-weight sum (with the average of the two
endpoint prevalences), taken only over the consecutive pairs of the path that
are joined by a direct edge — pairs without a direct edge contribute to
neither total. -/
theorem claim_C10 (g : Graph) (urgency : ℚ) (path : List String) :
    calculate_tour_metrics g urgency path =
      (((consecPairs path).filterMap (fun pr => g.get_edge_data pr.1 pr.2)).sum,
       ((consecPairs path).filterMap (fun pr => (g.get_edge_data pr.1 pr.2).map
          (fun d => calculate_priority_weight d
            ((g.prevD pr.1 (1/2) + g.prevD pr.2 (1/2)) / 2) urgency))).sum) :=
  calculate_tour_metrics_eq g urgency path

/-- C4: both tour constructors, started at a node of the graph, return a path
that starts at the start node, contains no node more than once, and has length
at least 1 and at most the total number of nodes. -/
theorem claim_C4 (g : Graph) (start_city : String) (hs : start_city ∈ g.nodeIds)
    (urgency : ℚ) :
    (∃ p, (optimal_tour_routing g start_city urgency).1 = some p ∧
      p.head? = some start_city ∧ p.Nodup ∧ 1 ≤ p.length ∧
      p.length ≤ g.nodeIds.length) ∧
    (∃ p, (priority_tour_routing g start_city urgency).1 = some p ∧
      p.head? = some start_city ∧ p.Nodup ∧ 1 ≤ p.length ∧
      p.length ≤ g.nodeIds.length) := by
  constructor
  · obtain ⟨r1, r2, r3, r4⟩ := tourLoopNearest_spec g urgency g.nodeIds.length
      [start_city] [start_city] start_city (by simp) (List.nodup_singleton _)
      (by simpa using hs) (fun x hx => hx)
    unfold optimal_tour_routing
    rw [if_neg (not_not_intro hs)]
    dsimp only
    refine ⟨_, rfl, ?_, r3, List.length_pos.mpr r1,
      (r3.subperm (fun x hx => r4 x hx)).length_le⟩
    rw [r2]
    rfl
  · obtain ⟨r1, r2, r3, r4⟩ := tourLoopPriority_spec g urgency g.nodeIds.length
      [start_city] [start_city] start_city (by simp) (List.nodup_singleton _)
      (by simpa using hs) (fun x hx => hx)
    unfold priority_tour_routing
    rw [if_neg (not_not_intro hs)]
    dsimp only
    refine ⟨_, rfl, ?_, r3, List.length_pos.mpr r1,
      (r3.subperm (fun x hx => r4 x hx)).length_le⟩
    rw [r2]
    rfl

/-- Witness for C4 on the example network. -/
theorem claim_C4_witness :
    (∃ p, (optimal_tour_routing exampleGraph "A" 1).1 = some p ∧
      p.head? = some "A" ∧ p.Nodup ∧ 1 ≤ p.length ∧
      p.length ≤ exampleGraph.nodeIds.length) ∧
    (∃ p, (priority_tour_routing exampleGraph "A" 1).1 = some p ∧
      p.head? = some "A" ∧ p.Nodup ∧ 1 ≤ p.length ∧
      p.length ≤ exampleGraph.nodeIds.length) :=
  claim_C4 exampleGraph "A" (by decide) 1

/-- C8: on a path of nodes that exist in the graph, get_route_details returns
the empty record list when the path has length 0 or 1, and on a path of length
n ≥ 2 returns exactly n − 1 records in order whose from/to fields are the i-th
and (i+1)-th path entries. -/
theorem claim_C8 (g : Graph) (path : List String)
    (hnodes : ∀ x ∈ path, x ∈ g.nodeIds) :
    (path.length ≤ 1 → get_route_details g path = some []) ∧
    ∃ segs, get_route_details g path = some segs ∧
      segs.length = path.length - 1 ∧
      ∀ i st, segs.get? i = some st →
        path.get? i = some st.fromCity ∧ path.get? (i + 1) = some st.toCity := by
  constructor
  · intro hlen
    cases path with
    | nil => rfl
    | cons a t =>
      cases t with
      | nil => rfl
      | cons b rest =>
        simp only [List.length_cons] at hlen
        omega
  · obtain ⟨segs, h1, h2, h3⟩ := get_route_details_spec g path hnodes
    exact ⟨segs, h1, h2, fun i st hst => ⟨(h3 i st hst).1, (h3 i st hst).2.1⟩⟩

/-- Witness for C8 on the three-node example path. -/
theorem claim_C8_witness :
    (([ "A", "B", "C"] : List String).length ≤ 1 →
      get_route_details exampleGraph [ "A", "B", "C"] = some []) ∧
    ∃ segs, get_route_details exampleGraph [ "A", "B", "C"] = some segs ∧
      segs.length = ([ "A", "B", "C"] : List String).length - 1 ∧
      ∀ i st, segs.get? i = some st →
        ([ "A", "B", "C"] : List String).get? i = some st.fromCity ∧
        ([ "A", "B", "C"] : List String).get? (i + 1) = some st.toCity :=
  claim_C8 exampleGraph [ "A", "B", "C"] (by decide)

/-- C9: each record produced by get_route_details carries as its distance the
direct edge's distance when a direct edge joins its endpoints; otherwise the
total distance reported by a solver call between the endpoints with urgency 1;
and 0 when that sub-query finds no path. -/
theorem claim_C9 (g : Graph) (path : List String) (segs : List RouteSegment)
    (h : get_route_details g path = some segs) (st : RouteSegment)
    (hst : st ∈ segs) :
    (∀ d : ℚ, g.get_edge_data st.fromCity st.toCity = some d →
      st.distance = (d : WithTop ℚ)) ∧
    (g.get_edge_data st.fromCity st.toCity = none →
      ((∃ q, (priority_dijkstra g st.fromCity st.toCity 1).1 = some q) →
        st.distance = (priority_dijkstra g st.fromCity st.toCity 1).2.1) ∧
      ((priority_dijkstra g st.fromCity st.toCity 1).1 = none →
        st.distance = 0)) := by
  have hd := get_route_details_distance g path segs h st hst
  unfold routeSegDistance at hd
  constructor
  · intro d hed
    rw [hed] at hd
    exact hd
  · intro hed
    rw [hed] at hd
    dsimp only at hd
    constructor
    · intro hq
      rw [if_pos (pyTruthy_dijkstra.mpr hq)] at hd
      exact hd
    · intro hnone
      have hneg : ¬ pyTruthy (priority_dijkstra g st.fromCity st.toCity 1).1 = true := by
        rw [hnone]
        simp [pyTruthy]
      rw [if_neg hneg] at hd
      exact hd

/-- Witness for C9 on the one-record route A, C of the example network. -/
theorem claim_C9_witness :
    (∀ d : ℚ, exampleGraph.get_edge_data exampleSegAC.fromCity exampleSegAC.toCity =
        some d → exampleSegAC.distance = (d : WithTop ℚ)) ∧
    (exampleGraph.get_edge_data exampleSegAC.fromCity exampleSegAC.toCity = none →
      ((∃ q, (priority_dijkstra exampleGraph exampleSegAC.fromCity
          exampleSegAC.toCity 1).1 = some q) →
        exampleSegAC.distance = (priority_dijkstra exampleGraph
          exampleSegAC.fromCity exampleSegAC.toCity 1).2.1) ∧
      ((priority_dijkstra exampleGraph exampleSegAC.fromCity
          exampleSegAC.toCity 1).1 = none → exampleSegAC.distance = 0)) :=
  claim_C9 exampleGraph [ "A", "C"] [exampleSegAC] rfl exampleSegAC
    (List.mem_singleton_self _)

/-- C2 (amended): no engine operation raises an exception except
get_route_details, whose node-attribute lookup `graph.nodes[current]` raises
KeyError — modelled by `none` — when the path mentions an identifier that is
not a node of the graph.  The solver and both tour constructors always return
a value: either the no-path sentinel or an actual path; and get_route_details
returns a record list whenever every node of its path exists in the graph. -/
theorem claim_C2 (g : Graph) :
    (∀ (source destination : String) (urgency : ℚ),
      priority_dijkstra g source destination urgency = (none, ⊤, ⊤) ∨
      ∃ p, (priority_dijkstra g source destination urgency).1 = some p) ∧
    (∀ path : List String, (∀ x ∈ path, x ∈ g.nodeIds) →
      (get_route_details g path).isSome = true) ∧
    (∀ (start_city : String) (urgency : ℚ),
      optimal_tour_routing g start_city urgency = (none, ⊤, ⊤) ∨
      ∃ p, (optimal_tour_routing g start_city urgency).1 = some p) ∧
    (∀ (start_city : String) (urgency : ℚ),
      priority_tour_routing g start_city urgency = (none, ⊤, ⊤) ∨
      ∃ p, (priority_tour_routing g start_city urgency).1 = some p) := by
  refine ⟨?_, ?_, ?_, ?_⟩
  · intro source destination urgency
    unfold priority_dijkstra
    by_cases c1 : source ∉ g.nodeIds ∨ destination ∉ g.nodeIds
    · rw [if_pos c1]
      exact Or.inl rfl
    · rw [if_neg c1]
      by_cases c2 : source = destination
      · rw [if_pos c2]
        exact Or.inr ⟨[source], rfl⟩
      · rw [if_neg c2]
        dsimp only
        by_cases c3 : (dijkstraLoop g destination urgency g.dijkstraFuel
            (dijkstraInit source)).pred destination = none ∧ destination ≠ source
        · rw [if_pos c3]
          exact Or.inl rfl
        · rw [if_neg c3]
          exact Or.inr ⟨_, rfl⟩
  · intro path hnodes
    obtain ⟨segs, h1, -, -⟩ := get_route_details_spec g path hnodes
    rw [h1]
    rfl
  · intro start_city urgency
    unfold optimal_tour_routing
    by_cases c1 : start_city ∉ g.nodeIds
    · rw [if_pos c1]
      exact Or.inl rfl
    · rw [if_neg c1]
      exact Or.inr ⟨_, rfl⟩
  · intro start_city urgency
    unfold priority_tour_routing
    by_cases c1 : start_city ∉ g.nodeIds
    · rw [if_pos c1]
      exact Or.inl rfl
    · rw [if_neg c1]
      exact Or.inr ⟨_, rfl⟩

/-- Witness for C2 on the example network. -/
theorem claim_C2_witness :
    (get_route_details exampleGraph [ "B", "A", "C"]).isSome = true :=
  (claim_C2 exampleGraph).2.1 [ "B", "A", "C"] (by decide)

/-- C2 counterexample: get_route_details is not total on arbitrary node ids —
on a path naming the absent node X it raises KeyError (modelled `none`)
instead of reporting a sentinel or degraded value. -/
theorem claim_C2_counterexample :
    get_route_details oneNodeGraph [ "A", "X"] = none := rfl

/-- C1 (amended): on a well-formed graph (§3) queried under the §4.1 urgency
contract (urgency > 0), for any source and destination node joined by some
direct-edge chain of finite cumulative priority weight, the solver returns a
path that starts at the source, ends at the destination, follows direct edges,
has cumulative priority weight equal to the reported score, and has cumulative
priority weight less than or equal to that of every direct-edge path between
the same pair. -/
theorem claim_C1 {g : Graph} (hg : g.WF) {u : ℚ} (hu : 0 < u)
    {s d : String} (hs : s ∈ g.nodeIds) (ht : d ∈ g.nodeIds)
    {q : List String} (hq1 : List.Chain' g.hasEdge q) (hq2 : q.head? = some s)
    (hq3 : q.getLast? = some d) (hfin : g.pathWeight u q < ⊤) :
    ∃ p, (priority_dijkstra g s d u).1 = some p ∧
      p.head? = some s ∧ p.getLast? = some d ∧ List.Chain' g.hasEdge p ∧
      g.pathWeight u p = (priority_dijkstra g s d u).2.2 ∧
      ∀ r, List.Chain' g.hasEdge r → r.head? = some s → r.getLast? = some d →
        g.pathWeight u p ≤ g.pathWeight u r :=
  priority_dijkstra_correct hg (le_of_lt hu) hs ht hq1 hq2 hq3 hfin

/-- Witness for C1: the example network, searching from A to C with urgency 1
along the finite-weight chain A, B, C. -/
theorem claim_C1_witness :
    ∃ p, (priority_dijkstra exampleGraph "A" "C" 1).1 = some p ∧
      p.head? = some "A" ∧ p.getLast? = some "C" ∧
      List.Chain' exampleGraph.hasEdge p ∧
      exampleGraph.pathWeight 1 p = (priority_dijkstra exampleGraph "A" "C" 1).2.2 ∧
      ∀ r, List.Chain' exampleGraph.hasEdge r → r.head? = some "A" →
        r.getLast? = some "C" →
        exampleGraph.pathWeight 1 p ≤ exampleGraph.pathWeight 1 r := by
  have hc1 : exampleGraph.edgeCost 1 "A" "B" = ((1 : ℚ) : WithTop ℚ) := by
    have e : exampleGraph.edgeCost 1 "A" "B" =
        calculate_priority_weight 1 ((1 + 1) / 2) 1 := rfl
    rw [e]
    norm_num [calculate_priority_weight]
  have hc2 : exampleGraph.edgeCost 1 "B" "C" = ((1 : ℚ) : WithTop ℚ) := by
    have e : exampleGraph.edgeCost 1 "B" "C" =
        calculate_priority_weight 1 ((1 + 1) / 2) 1 := rfl
    rw [e]
    norm_num [calculate_priority_weight]
  have hfin : exampleGraph.pathWeight 1 [ "A", "B", "C"] < ⊤ := by
    have e : exampleGraph.pathWeight 1 [ "A", "B", "C"] =
        exampleGraph.edgeCost 1 "A" "B" + (exampleGraph.edgeCost 1 "B" "C" + 0) := rfl
    rw [e, hc1, hc2]
    refine WithTop.add_lt_top.mpr ⟨WithTop.coe_lt_top _,
      WithTop.add_lt_top.mpr ⟨WithTop.coe_lt_top _, ?_⟩⟩
    exact WithTop.coe_lt_top (0 : ℚ)
  exact claim_C1 (q := [ "A", "B", "C"]) (by decide) (by norm_num) (by decide)
    (by decide)
    (List.chain'_cons.mpr ⟨rfl, List.chain'_cons.mpr ⟨rfl, List.chain'_singleton _⟩⟩)
    rfl rfl hfin

/-- C1 counterexample: on the well-formed graph `zeroPrevGraph` the
destination B is reachable from the source A through the direct edge A–B, yet
the solver returns the no-path sentinel, because both prevalences are 0 and
the edge is priced at infinite priority weight — reachability alone does not
suffice for the claimed postcondition. -/
theorem claim_C1_counterexample :
    zeroPrevGraph.WF ∧
    List.Chain' zeroPrevGraph.hasEdge [ "A", "B"] ∧
    ([ "A", "B"] : List String).head? = some "A" ∧
    ([ "A", "B"] : List String).getLast? = some "B" ∧
    (priority_dijkstra zeroPrevGraph "A" "B" 1).1 = none := by
  refine ⟨by decide, List.chain'_cons.mpr ⟨rfl, List.chain'_singleton _⟩, rfl, rfl, ?_⟩
  have hC : zeroPrevGraph.edgeCost 1 "A" "B" = ⊤ := by
    have e : zeroPrevGraph.edgeCost 1 "A" "B" =
        calculate_priority_weight 100 ((0 + 0) / 2) 1 := rfl
    rw [e, calculate_priority_weight, if_pos (Or.inl (by norm_num))]
  have hrel : relaxNeighbors zeroPrevGraph 1 "A" 0 0 zeroPrevState = zeroPrevState := by
    have h1 : relaxNeighbors zeroPrevGraph 1 "A" 0 0 zeroPrevState =
        relaxOne zeroPrevGraph 1 "A" 0 0 zeroPrevState "B" := rfl
    rw [h1]
    rcases relaxOne_cases zeroPrevGraph 1 "A" 0 0 zeroPrevState "B"
      with ⟨hm, -⟩ | ⟨-, -, he⟩ | ⟨-, hlt, -⟩
    · exact absurd hm (by decide)
    · exact he
    · have hb : zeroPrevState.best "B" = ⊤ := rfl
      rw [hC, hb] at hlt
      simp at hlt
  have step1 : dijkstraLoop zeroPrevGraph "B" 1 13 (dijkstraInit "A") =
      dijkstraLoop zeroPrevGraph "B" 1 12
        (relaxNeighbors zeroPrevGraph 1 "A" 0 0 zeroPrevState) :=
    dijkstraLoop_step_main (s := dijkstraInit "A")
      (e := ((0 : WithTop ℚ), (0 : ℚ), "A")) rfl (by decide) (by decide)
      (by
        have hb : (dijkstraInit "A").best "A" = 0 := rfl
        rw [hb]
        exact lt_irrefl 0)
  have step2 : dijkstraLoop zeroPrevGraph "B" 1 12 zeroPrevState = zeroPrevState :=
    dijkstraLoop_step_none rfl
  have hloop : dijkstraLoop zeroPrevGraph "B" 1 zeroPrevGraph.dijkstraFuel
      (dijkstraInit "A") = zeroPrevState := by
    have hf : zeroPrevGraph.dijkstraFuel = 13 := rfl
    rw [hf, step1, hrel, step2]
  unfold priority_dijkstra
  rw [if_neg (by decide), if_neg (by decide)]
  dsimp only
  rw [hloop, if_pos ⟨rfl, by decide⟩]
